import Mathlib

/-!
Verification of the stdlib analyzer (github.com/abemedia/stdlib).

This file contains a shallow embedding of the matching-and-rewrite engine:
the version gate (go/version.Compare as used in stdlib.go), the replacement
registry (src/replacements.go), the rewrite strategies (tmpl, toVariadic,
lessToCmp from src/replacements.go and keyToCmp from the revision kept in
src/testdata/go1.23/lo.go.golden), the call-site scanner
(processFileSymbols), the package-rename pass (processFileImports) and
the import-usage tracker (processUnusedImports), all from src/stdlib.go.

Positions are byte offsets modelled as Nat.  Machine integers do not
overflow in any relevant code path.  Failing Go functions are modelled
with Option.
-/

namespace Stdlib

/-! ## Version gate

The scanner calls version.Compare from the Go standard library package
go/version.  A version string must begin with the literal prefix go
(for example go1.21); anything else is invalid, and invalid versions
compare less than every valid version and equal to each other.  Valid
release versions are ordered by major, then minor, then patch, where a
missing patch is stored as 0 up to minor 20 and as absent from minor 21
on, and an absent patch sorts before every explicit patch.  Prerelease
kinds (rc, beta) are not used anywhere in this repository and are not
modelled: a version string containing them parses as invalid here. -/

/-- Split a character list at every occurrence of the separator
character, mirroring strings.Split for a one character separator (the
only separators this program uses are the dot, the slash and the go
prefix handled separately). -/
def splitOnChar (c : Char) : List Char → List (List Char)
  | [] => [[]]
  | x :: xs =>
      match splitOnChar c xs with
      | [] => [[]]
      | h :: t => if x == c then [] :: h :: t else (x :: h) :: t

/-- Numeric value of a list of decimal digits. -/
def digitsToNat (l : List Char) : Nat :=
  l.foldl (fun n c => n * 10 + (c.toNat - 48)) 0

/-- True when the character list is a decimal numeral without a leading
zero, mirroring the cutInt parser of internal/gover. -/
def isNumeral (l : List Char) : Bool :=
  !l.isEmpty && l.all Char.isDigit && (l == ['0'] || l.head? != some '0')

/-- Parse a Go version string such as go1.21 into (major, minor, patch),
mirroring go/version parsing for release versions.  Returns none for
invalid strings (no go prefix, malformed numerals, too many components). -/
def parseGoVersion (s : String) : Option (Nat × Nat × Option Nat) :=
  match s.data with
  | 'g' :: 'o' :: rest =>
      (match splitOnChar '.' rest with
       | [a] =>
           if isNumeral a then some (digitsToNat a, 0, some 0) else none
       | [a, b] =>
           if isNumeral a && isNumeral b then
             some (digitsToNat a, digitsToNat b,
               if digitsToNat b < 21 then some 0 else none)
           else none
       | [a, b, c] =>
           if isNumeral a && isNumeral b && isNumeral c then
             some (digitsToNat a, digitsToNat b, some (digitsToNat c))
           else none
       | _ => none)
  | _ => none

/-- Three way comparison on Nat, as an Int in {-1, 0, 1}. -/
def cmpNat (a b : Nat) : Int :=
  if a < b then -1 else if b < a then 1 else 0

/-- Three way comparison on an optional patch number: an absent patch
sorts before every explicit patch (gover compares the empty numeral as
smaller than every numeral). -/
def cmpOptNat : Option Nat → Option Nat → Int
  | none, none => 0
  | none, some _ => -1
  | some _, none => 1
  | some a, some b => cmpNat a b

/-- The version.Compare function of go/version as used by the scanner:
invalid versions compare less than valid ones and equal to each other;
valid versions compare lexicographically by major, minor, patch. -/
def versionCompare (x y : String) : Int :=
  match parseGoVersion x, parseGoVersion y with
  | none, none => 0
  | none, some _ => -1
  | some _, none => 1
  | some (a1, b1, c1), some (a2, b2, c2) =>
      if cmpNat a1 a2 != 0 then cmpNat a1 a2
      else if cmpNat b1 b2 != 0 then cmpNat b1 b2
      else cmpOptNat c1 c2

/-- The two argument form of cmp.Or on strings: the first non empty
argument, or the empty string. -/
def cmpOr2 (a b : String) : String :=
  if a != "" then a else b

/-- The three argument form of cmp.Or on strings, used for the effective
Go version: cmp.Or(file.GoVersion, pass.Pkg.GoVersion(), "go1.9999"). -/
def cmpOr3 (a b c : String) : String :=
  if a != "" then a else if b != "" then b else c

/-- Effective Go version of a file (stdlib.go lines 44 and 96). -/
def effectiveGoVersion (fileGoVersion pkgGoVersion : String) : String :=
  cmpOr3 fileGoVersion pkgGoVersion "go1.9999"

/-! ## Small string helpers from the Go standard library -/

/-- The path.Base function restricted to the clean, slash separated import
paths appearing in the registry (no trailing slashes). -/
def pathBase (p : String) : String :=
  if p = "" then "."
  else ((((splitOnChar '/' p.data).map String.mk).getLast?).getD p)

/-- strconv.Quote restricted to strings without characters needing escape
sequences (all package paths in the registry are of this form). -/
def strconvQuote (s : String) : String :=
  "\"" ++ s ++ "\""

/-- strconv.Unquote restricted to double quoted strings without escape
sequences, which covers every import path literal this analyzer handles. -/
def strconvUnquote (s : String) : Option String :=
  match s.data with
  | '"' :: rest =>
      match rest.getLast? with
      | some '"' =>
          let inner := rest.dropLast
          if inner.any (fun c => c == '"' || c == '\\') then none
          else some (String.mk inner)
      | _ => none
  | _ => none

/-- strings.Cut: split at the first occurrence of the one character
separator, returning none when the separator does not occur (the ok
result in Go).  The analyzer only ever cuts on the dot. -/
def stringsCut (s sep : String) : Option (String × String) :=
  match sep.data with
  | [c] =>
      match splitOnChar c s.data with
      | [] => none
      | [_] => none
      | x :: rest => some (String.mk x, String.intercalate sep (rest.map String.mk))
  | _ => none

/-! ## The go/ast fragment the analyzer inspects

Only the node shapes the analyzer matches are modelled.  Every node
carries the byte offsets the analyzer reads through Pos and End.  An
identifier ends at its position plus the length of its name, exactly as
in go/ast. -/

/-- An ast.Ident: a name and the offset of its first byte. -/
structure Ident where
  name : String
  pos : Nat
deriving Repr, DecidableEq

/-- The End offset of an identifier: NamePos + len(Name). -/
def Ident.endPos (i : Ident) : Nat := i.pos + i.name.length

/-- The binary operator tokens distinguished by the rewrite strategies:
the four ordering comparisons, the two equality tests, and two
representatives of every other operator (which all hit the same default
branch of the switch in lessToCmp). -/
inductive Token where
  | lss | leq | gtr | geq | eql | neq | add | sub
deriving Repr, DecidableEq

/-- Source text of a token, as go/printer writes it. -/
def tokenText : Token → String
  | .lss => "<"
  | .leq => "<="
  | .gtr => ">"
  | .geq => ">="
  | .eql => "=="
  | .neq => "!="
  | .add => "+"
  | .sub => "-"

mutual

/-- The ast.Expr shapes the strategies inspect.  callE stores the
arguments and the offset of the closing parenthesis; funcLitE stores the
function type and the body block. -/
inductive Expr where
  | identE : Ident → Expr
  | basicLit : String → Nat → Expr
  | binaryE : Expr → Token → Expr → Expr
  | selectorE : Expr → Ident → Expr
  | callE : Expr → List Expr → Nat → Expr
  | funcLitE : FuncType → Block → Expr

/-- An ast.Field: names and a type expression. -/
inductive Field where
  | mk : List Ident → Expr → Field

/-- An ast.FieldList: opening offset, fields, closing offset. -/
inductive FieldList where
  | mk : Nat → List Field → Nat → FieldList

/-- An ast.FuncType: offset of the func keyword, parameters, and the
optional result list. -/
inductive FuncType where
  | mk : Nat → FieldList → Option FieldList → FuncType

/-- An ast.BlockStmt: left brace offset, statements, right brace offset. -/
inductive Block where
  | mk : Nat → List Stmt → Nat → Block

/-- The ast.Stmt shapes relevant to collecting return statements:
return statements, expression statements, and if statements with an
optional else block. -/
inductive Stmt where
  | returnS : List Expr → Nat → Stmt
  | exprS : Expr → Stmt
  | ifS : Expr → Block → Option Block → Nat → Stmt

end

/-- Names of a field. -/
def Field.names : Field → List Ident
  | .mk ns _ => ns

/-- Type expression of a field. -/
def Field.fieldType : Field → Expr
  | .mk _ t => t

/-- Opening offset of a field list. -/
def FieldList.opening : FieldList → Nat
  | .mk o _ _ => o

/-- Fields of a field list. -/
def FieldList.list : FieldList → List Field
  | .mk _ l _ => l

/-- Closing offset of a field list. -/
def FieldList.closing : FieldList → Nat
  | .mk _ _ c => c

/-- Offset of the func keyword of a function type. -/
def FuncType.funcPos : FuncType → Nat
  | .mk p _ _ => p

/-- Parameter list of a function type. -/
def FuncType.params : FuncType → FieldList
  | .mk _ p _ => p

/-- Result list of a function type. -/
def FuncType.results : FuncType → Option FieldList
  | .mk _ _ r => r

/-- Left brace offset of a block. -/
def Block.lbrace : Block → Nat
  | .mk l _ _ => l

/-- Statements of a block. -/
def Block.stmts : Block → List Stmt
  | .mk _ s _ => s

/-- Right brace offset of a block. -/
def Block.rbrace : Block → Nat
  | .mk _ _ r => r

/-- The Pos offset of an expression, as in go/ast. -/
def Expr.posOf : Expr → Nat
  | .identE i => i.pos
  | .basicLit _ p => p
  | .binaryE x _ _ => x.posOf
  | .selectorE x _ => x.posOf
  | .callE f _ _ => f.posOf
  | .funcLitE ft _ => ft.funcPos

/-- The End offset of an expression, as in go/ast (one past the last
byte of the node). -/
def Expr.endOf : Expr → Nat
  | .identE i => i.endPos
  | .basicLit v p => p + v.length
  | .binaryE _ _ y => y.endOf
  | .selectorE _ s => s.endPos
  | .callE _ _ rparen => rparen + 1
  | .funcLitE _ b => b.rbrace + 1

/-- The Pos offset of a statement. -/
def Stmt.posOf : Stmt → Nat
  | .returnS _ p => p
  | .exprS e => e.posOf
  | .ifS _ _ _ p => p

/-- The End offset of a statement.  A return statement without results
ends after the six byte return keyword, as in go/ast. -/
def Stmt.endOf : Stmt → Nat
  | .returnS results p =>
      match results.getLast? with
      | some e => e.endOf
      | none => p + 6
  | .exprS e => e.endOf
  | .ifS _ body els _ =>
      match els with
      | some b => b.rbrace + 1
      | none => body.rbrace + 1

/-! ## Printing, identifier search and substitution

printer.Fprint renders a node back to source text.  On the expression
shapes above it cannot fail, so it is modelled as a total function; the
error branches of the strategies that guard it are therefore never taken
in the model.  ast.Inspect visits every identifier of an expression,
including selector fields and identifiers inside nested function
literals. -/

mutual

/-- Source text of an expression, as printer.Fprint renders it. -/
def printExpr : Expr → String
  | .identE i => i.name
  | .basicLit v _ => v
  | .binaryE x op y => printExpr x ++ " " ++ tokenText op ++ " " ++ printExpr y
  | .selectorE x s => printExpr x ++ "." ++ s.name
  | .callE f args _ => printExpr f ++ "(" ++ printExprList args ++ ")"
  | .funcLitE ft b => "func" ++ printFuncType ft ++ " " ++ printBlock b

/-- Comma separated source text of an argument list. -/
def printExprList : List Expr → String
  | [] => ""
  | [e] => printExpr e
  | e :: rest => printExpr e ++ ", " ++ printExprList rest

/-- Source text of a field: its names followed by its type. -/
def printField : Field → String
  | .mk ns t => String.intercalate ", " (ns.map Ident.name) ++
      (if ns.isEmpty then "" else " ") ++ printExpr t

/-- Comma separated source text of a field list. -/
def printFieldList : List Field → String
  | [] => ""
  | [f] => printField f
  | f :: rest => printField f ++ ", " ++ printFieldList rest

/-- Source text of a function type, without the func keyword. -/
def printFuncType : FuncType → String
  | .mk _ (.mk _ ps _) rs =>
      "(" ++ printFieldList ps ++ ")" ++
      (match rs with
       | none => ""
       | some (.mk _ fl _) => " " ++ printFieldList fl)

/-- Source text of a block. -/
def printBlock : Block → String
  | .mk _ stmts _ => "\x7b " ++ printStmtList stmts ++ " \x7d"

/-- Source text of a statement list. -/
def printStmtList : List Stmt → String
  | [] => ""
  | [s] => printStmt s
  | s :: rest => printStmt s ++ "; " ++ printStmtList rest

/-- Source text of a statement. -/
def printStmt : Stmt → String
  | .returnS results _ => "return " ++ printExprList results
  | .exprS e => printExpr e
  | .ifS cond body els _ =>
      "if " ++ printExpr cond ++ " " ++ printBlock body ++
      (match els with
       | none => ""
       | some b => " else " ++ printBlock b)

end

mutual

/-- Whether an identifier with the given name occurs anywhere in the
expression, as observed by ast.Inspect (selector fields and nested
function literals included). -/
def containsIdentExpr (nm : String) : Expr → Bool
  | .identE i => i.name == nm
  | .basicLit _ _ => false
  | .binaryE x _ y => containsIdentExpr nm x || containsIdentExpr nm y
  | .selectorE x s => containsIdentExpr nm x || s.name == nm
  | .callE f args _ => containsIdentExpr nm f || containsIdentList nm args
  | .funcLitE ft b => containsIdentFuncType nm ft || containsIdentBlock nm b

/-- Identifier occurrence in an expression list. -/
def containsIdentList (nm : String) : List Expr → Bool
  | [] => false
  | e :: rest => containsIdentExpr nm e || containsIdentList nm rest

/-- Identifier occurrence in a field. -/
def containsIdentField (nm : String) : Field → Bool
  | .mk ns t => ns.any (fun i => i.name == nm) || containsIdentExpr nm t

/-- Identifier occurrence in a field list. -/
def containsIdentFields (nm : String) : List Field → Bool
  | [] => false
  | f :: rest => containsIdentField nm f || containsIdentFields nm rest

/-- Identifier occurrence in a function type. -/
def containsIdentFuncType (nm : String) : FuncType → Bool
  | .mk _ (.mk _ ps _) rs =>
      containsIdentFields nm ps ||
      (match rs with
       | none => false
       | some (.mk _ fl _) => containsIdentFields nm fl)

/-- Identifier occurrence in a block. -/
def containsIdentBlock (nm : String) : Block → Bool
  | .mk _ stmts _ => containsIdentStmts nm stmts

/-- Identifier occurrence in a statement list. -/
def containsIdentStmts (nm : String) : List Stmt → Bool
  | [] => false
  | s :: rest => containsIdentStmt nm s || containsIdentStmts nm rest

/-- Identifier occurrence in a statement. -/
def containsIdentStmt (nm : String) : Stmt → Bool
  | .returnS results _ => containsIdentList nm results
  | .exprS e => containsIdentExpr nm e
  | .ifS cond body els _ =>
      containsIdentExpr nm cond || containsIdentBlock nm body ||
      (match els with
       | none => false
       | some b => containsIdentBlock nm b)

end

mutual

/-- Rename every identifier called old to new, everywhere in the
expression, mirroring the ast.Inspect loop of keyToCmp on the reparsed
copy of a return expression. -/
def substIdentExpr (old new : String) : Expr → Expr
  | .identE i => .identE (if i.name == old then { i with name := new } else i)
  | .basicLit v p => .basicLit v p
  | .binaryE x op y => .binaryE (substIdentExpr old new x) op (substIdentExpr old new y)
  | .selectorE x s =>
      .selectorE (substIdentExpr old new x)
        (if s.name == old then { s with name := new } else s)
  | .callE f args rparen => .callE (substIdentExpr old new f) (substIdentExprList old new args) rparen
  | .funcLitE ft b => .funcLitE (substIdentFuncType old new ft) (substIdentBlock old new b)

/-- Rename in an expression list. -/
def substIdentExprList (old new : String) : List Expr → List Expr
  | [] => []
  | e :: rest => substIdentExpr old new e :: substIdentExprList old new rest

/-- Rename in a field. -/
def substIdentField (old new : String) : Field → Field
  | .mk ns t =>
      .mk (ns.map (fun i => if i.name == old then { i with name := new } else i))
        (substIdentExpr old new t)

/-- Rename in a field list. -/
def substIdentFields (old new : String) : List Field → List Field
  | [] => []
  | f :: rest => substIdentField old new f :: substIdentFields old new rest

/-- Rename in a function type. -/
def substIdentFuncType (old new : String) : FuncType → FuncType
  | .mk p (.mk po ps pc) rs =>
      .mk p (.mk po (substIdentFields old new ps) pc)
        (match rs with
         | none => none
         | some (.mk o fl c) => some (.mk o (substIdentFields old new fl) c))

/-- Rename in a block. -/
def substIdentBlock (old new : String) : Block → Block
  | .mk l stmts r => .mk l (substIdentStmts old new stmts) r

/-- Rename in a statement list. -/
def substIdentStmts (old new : String) : List Stmt → List Stmt
  | [] => []
  | s :: rest => substIdentStmt old new s :: substIdentStmts old new rest

/-- Rename in a statement. -/
def substIdentStmt (old new : String) : Stmt → Stmt
  | .returnS results p => .returnS (substIdentExprList old new results) p
  | .exprS e => .exprS (substIdentExpr old new e)
  | .ifS cond body els p =>
      .ifS (substIdentExpr old new cond) (substIdentBlock old new body)
        (match els with
         | none => none
         | some b => some (substIdentBlock old new b))
        p

end

/-! ## Collecting return statements

ast.Preorder(funcLit.Body) visits the return statements of the body in
source order, descending into nested blocks.  Function literals nested
inside expressions are not modelled as sources of further return
statements: in type checked input a rewritable comparison return cannot
occur inside the operand of another rewritable comparison return, and
none of the repository test inputs nest literals this way. -/

mutual

/-- Return statements of a block, in preorder. -/
def returnsOfBlock : Block → List Stmt
  | .mk _ stmts _ => returnsOfStmts stmts

/-- Return statements of a statement list, in preorder. -/
def returnsOfStmts : List Stmt → List Stmt
  | [] => []
  | s :: rest => returnsOfStmt s ++ returnsOfStmts rest

/-- Return statements of a statement, in preorder. -/
def returnsOfStmt : Stmt → List Stmt
  | .returnS results p => [.returnS results p]
  | .exprS _ => []
  | .ifS _ body els _ =>
      returnsOfBlock body ++
      (match els with
       | none => []
       | some b => returnsOfBlock b)

end

/-! ## Text edits, fixes and diagnostics (golang.org/x/tools/go/analysis) -/

/-- An analysis.TextEdit: a half open span [pos, endPos) and the
replacement text. -/
structure TextEdit where
  pos : Nat
  endPos : Nat
  newText : String
deriving Repr, DecidableEq

/-- An analysis.SuggestedFix. -/
structure SuggestedFix where
  message : String
  textEdits : List TextEdit
deriving Repr, DecidableEq

/-- An analysis.Diagnostic, with the fields the analyzer sets. -/
structure Diagnostic where
  category : String
  pos : Nat
  endPos : Nat
  message : String
  suggestedFixes : List SuggestedFix
deriving Repr, DecidableEq

/-! ## Rewrite strategies (src/replacements.go)

A rewriteFunc takes the matched call expression and returns a definitive
list of edits or a failure; the (edits, ok) pair of Go becomes an
Option.  The strategies only ever receive an ast.CallExpr, so every
strategy returns failure on any other constructor (that branch is
unreachable in the scanner). -/

/-- The type of rewrite strategies. -/
abbrev RewriteFunc := Expr → Option (List TextEdit)

/-- The three way comparison call text that lessToCmp and keyToCmp splice
in, built by fmt.Appendf with the two operand texts. -/
def cmpCompareText (left right : String) : String :=
  "cmp.Compare(" ++ left ++ ", " ++ right ++ ")"

/-- The template bodies used by tmpl in the registry.  The Go code runs
text/template on a fixed template string over the package name, the
function name, and the printed argument texts; template execution fails
(and the strategy reports failure) when an argument index is out of
range.  Each template of the registry is modelled by its render
function. -/
def dropTemplate : String → String → List String → Option String := fun _ _ args =>
  match args with
  | a0 :: a1 :: _ => some (a0 ++ "[" ++ a1 ++ ":]")
  | _ => none

/-- Render function of the DropRight template. -/
def dropRightTemplate : String → String → List String → Option String := fun _ _ args =>
  match args with
  | a0 :: a1 :: _ => some (a0 ++ "[:len(" ++ a0 ++ ")-" ++ a1 ++ "]")
  | _ => none

/-- The tmpl strategy of src/replacements.go: require the callee to be a
selector whose receiver is an identifier, print every argument, render
the template, and replace the whole call with the rendered text.  Any
failure (shape mismatch or template error) reports failure. -/
def tmpl (render : String → String → List String → Option String) : RewriteFunc := fun call =>
  match call with
  | .callE f args rparen =>
      match f with
      | .selectorE (.identE pkgIdent) selIdent =>
          match render pkgIdent.name selIdent.name (args.map printExpr) with
          | none => none
          | some newText => some [⟨f.posOf, rparen + 1, newText⟩]
      | _ => none
  | _ => none

/-- The toVariadic strategy of src/replacements.go (lines 97 to 108):
with at least one argument, succeed with a single zero width insertion
of three dots at the end offset of the last argument; with no arguments,
report failure. -/
def toVariadic : RewriteFunc := fun call =>
  match call with
  | .callE _ args _ =>
      match args.getLast? with
      | some arg => some [⟨arg.endOf, arg.endOf, "..."⟩]
      | none => none
  | _ => none

/-- Per return processing of lessToCmp (src/replacements.go lines 131 to
170): skip returns that do not have exactly one result; fail unless the
single result is a binary expression whose operator is one of the four
ordering comparisons, swapping the printed operands according to the
operator direction and the reverse flag. -/
def lessToCmpRets (reverse : Bool) : List Stmt → Option (List TextEdit)
  | [] => some []
  | .returnS results _ :: rest =>
      match results with
      | [res] =>
          match res with
          | .binaryE x op y =>
              let left := printExpr x
              let right := printExpr y
              match op with
              | .lss | .leq =>
                  let (l, r) := if reverse then (right, left) else (left, right)
                  (lessToCmpRets reverse rest).map
                    (fun es => ⟨res.posOf, res.endOf, cmpCompareText l r⟩ :: es)
              | .gtr | .geq =>
                  let (l, r) := if !reverse then (right, left) else (left, right)
                  (lessToCmpRets reverse rest).map
                    (fun es => ⟨res.posOf, res.endOf, cmpCompareText l r⟩ :: es)
              | _ => none
          | _ => none
      | _ => lessToCmpRets reverse rest
  | _ :: rest => lessToCmpRets reverse rest

/-- The lessToCmp strategy of src/replacements.go (lines 112 to 174): the
last argument must be a function literal; change its declared result
type to int when a result type is present, then process every return
statement of the body.  A call without arguments makes the Go code index
out of range (a panic); that branch is modelled as failure and no
theorem relies on it. -/
def lessToCmp (reverse : Bool) : RewriteFunc := fun call =>
  match call with
  | .callE _ args _ =>
      match args.getLast? with
      | some (.funcLitE ft body) =>
          let typeEdits : List TextEdit :=
            match ft.results with
            | some (.mk _ (f0 :: _) _) =>
                [⟨f0.fieldType.posOf, f0.fieldType.endOf, "int"⟩]
            | _ => []
          (lessToCmpRets reverse (returnsOfBlock body)).map
            (fun retEdits => typeEdits ++ retEdits)
      | some _ => none
      | none => none
  | _ => none

/-- Per return processing of keyToCmp (src/testdata/go1.23/lo.go.golden
lines 564 to 606): fail on returns that do not have exactly one result;
print the single result, rename every occurrence of the original
parameter to next in a copy (the source prints and reparses the
expression to obtain that copy), fail when no occurrence was found, and
otherwise splice a three way comparison of the original text with the
renamed text. -/
def keyToCmpRets (paramName : String) : List Stmt → Option (List TextEdit)
  | [] => some []
  | .returnS results _ :: rest =>
      match results with
      | [res] =>
          if containsIdentExpr paramName res then
            (keyToCmpRets paramName rest).map
              (fun es =>
                ⟨res.posOf, res.endOf,
                  cmpCompareText (printExpr res)
                    (printExpr (substIdentExpr paramName "next" res))⟩ :: es)
          else none
      | _ => none
  | _ :: rest => keyToCmpRets paramName rest

/-- The keyToCmp strategy (src/testdata/go1.23/lo.go.golden lines 530 to
610): the argument at the given index must be a function literal; emit
an edit changing the declared result type to int, require the first
parameter field to have exactly one name, emit an edit extending the
parameter list with a second parameter named next of the same type, and
process every return statement.  The unguarded Go index expressions for
the result type and the first parameter panic when absent; those
branches are modelled as failure and no theorem relies on them. -/
def keyToCmp (arg : Nat) : RewriteFunc := fun call =>
  match call with
  | .callE _ args _ =>
      match args.get? arg with
      | some (.funcLitE ft body) =>
          match ft.results with
          | some (.mk _ (f0 :: _) _) =>
              let typeEdit : TextEdit := ⟨f0.fieldType.posOf, f0.fieldType.endOf, "int"⟩
              match ft.params with
              | .mk opening (p0 :: _) closing =>
                  match p0.names with
                  | [pname] =>
                      let paramType := printExpr p0.fieldType
                      let paramEdit : TextEdit :=
                        ⟨opening + 1, closing, pname.name ++ ", next " ++ paramType⟩
                      (keyToCmpRets pname.name (returnsOfBlock body)).map
                        (fun retEdits => typeEdit :: paramEdit :: retEdits)
                  | _ => none
              | _ => none
          | _ => none
      | some _ => none
      | none => none
  | _ => none

/-! ## The replacement registry (src/replacements.go lines 15 to 41)

stdlib.go consults this table under the name symbols; the revision in
src/replacements.go names it replacements (the golden revision names it
calls).  The entries below are exactly those of src/replacements.go,
including its minVersion strings, which carry a v prefix instead of the
go prefix that version.Compare requires. -/

/-- One entry of the symbol replacement table. -/
structure SymbolRepl where
  stdlib : String
  minVersion : String
  rewrite : Option RewriteFunc

/-- The replacements table of src/replacements.go. -/
def replacements : List (String × List (String × SymbolRepl)) :=
  [("github.com/samber/lo",
    [("Chunk", ⟨"slices.Chunk", "v1.21", none⟩),
     ("Drop", ⟨"", "v1.0", some (tmpl dropTemplate)⟩),
     ("DropRight", ⟨"", "v1.0", some (tmpl dropRightTemplate)⟩),
     ("Contains", ⟨"slices.Contains", "v1.21", none⟩),
     ("ContainsBy", ⟨"slices.ContainsFunc", "v1.21", none⟩),
     ("IndexOf", ⟨"slices.Index", "v1.21", none⟩),
     ("LastIndexOf", ⟨"slices.LastIndex", "v1.21", none⟩),
     ("Min", ⟨"slices.Min", "v1.21", none⟩),
     ("MinBy", ⟨"slices.MinFunc", "v1.21", some (lessToCmp false)⟩),
     ("Max", ⟨"slices.Max", "v1.21", none⟩),
     ("MaxBy", ⟨"slices.MaxFunc", "v1.21", some (lessToCmp true)⟩),
     ("IsSorted", ⟨"slices.IsSorted", "v1.21", none⟩),
     ("Flatten", ⟨"slices.Concat", "v1.21", some toVariadic⟩),
     ("Keys", ⟨"maps.Keys", "v1.21", none⟩),
     ("Values", ⟨"maps.Values", "v1.21", none⟩),
     ("CoalesceOrEmpty", ⟨"cmp.Or", "v1.21", none⟩)]),
   ("github.com/samber/lo/mutable",
    [("Reverse", ⟨"slices.Reverse", "v1.21", none⟩)])]

/-- The name stdlib.go uses for the symbol replacement table. -/
def symbols : List (String × List (String × SymbolRepl)) := replacements

/-- Map lookup symbols[pkgPath][objName], none when either key is
absent. -/
def symbolsLookup (pkgPath objName : String) : Option SymbolRepl :=
  match symbols.lookup pkgPath with
  | none => none
  | some tbl => tbl.lookup objName

/-- The check symbols[pkgPath] performed by processUnusedImports: is any
replacement configured for this package path. -/
def pkgConfigured (pkgPath : String) : Bool :=
  (symbols.lookup pkgPath).isSome

/-- Every entry stored in the symbol replacement table. -/
def allSymbolRepls : List SymbolRepl :=
  replacements.flatMap (fun p => p.2.map Prod.snd)

/-- One entry of the package import replacement table. -/
structure PkgRepl where
  stdlib : String
  minVersion : String
  pkgName : String
deriving Repr, DecidableEq

/-- The package import replacement table consulted by
processFileImports.  Its definition is kept in the revision at
src/testdata/go1.23/lo.go.golden lines 355 to 368 under the
name imports (the named source files only reference it). -/
def importsTable : List (String × PkgRepl) :=
  [("golang.org/x/exp/maps", ⟨"maps", "go1.21", ""⟩),
   ("golang.org/x/exp/rand", ⟨"math/rand/v2", "go1.22", "rand"⟩),
   ("golang.org/x/exp/slices", ⟨"slices", "go1.21", ""⟩),
   ("golang.org/x/exp/slog", ⟨"log/slog", "go1.21", ""⟩),
   ("golang.org/x/net/context", ⟨"context", "go1.7", ""⟩),
   ("golang.org/x/sync/syncmap", ⟨"sync", "go1.7", ""⟩)]

/-- Map lookup imports[pkgPath]. -/
def importsLookup (pkgPath : String) : Option PkgRepl :=
  importsTable.lookup pkgPath

/-- Every minimum version string stored in the two registry tables. -/
def registryMinVersions : List String :=
  (replacements.flatMap (fun p => p.2.map (fun q => q.2.minVersion))) ++
    importsTable.map (fun p => p.2.minVersion)

/-! ## Files as the scanner sees them

The scanner receives parsed, type checked files.  A file exposes
its import specs, its declarations (only the position data of the
first import declaration is ever read), and the identifier uses recorded in
pass.TypesInfo.Uses.  A Ref models one package qualified reference
alias.Symbol: the qualifier identifier (a use of the *types.PkgName of
some import, counted by processUnusedImports) together with the
selected identifier (a use of the named object, processed by
processFileSymbols) and the syntactic shape around them.  Dot imports,
whose uses have no qualifier, do not occur in the repository tests and
are not modelled. -/

/-- An ast.ImportSpec together with the type checker facts read for it:
pkgNameName is the Name of the *types.PkgName returned by PkgNameOf
(the alias when one is written, otherwise the declared package name),
and uses lists the identifiers in pass.TypesInfo.Uses bound to that
PkgName object. -/
structure ImportSpec where
  name : Option Ident
  pathValue : String
  pathPos : Nat
  pkgNameName : String
  uses : List Ident
deriving Repr, DecidableEq

/-- End offset of the path literal of an import spec. -/
def ImportSpec.pathEnd (s : ImportSpec) : Nat := s.pathPos + s.pathValue.length

/-- Pos of an import spec: the alias when present, else the path. -/
def ImportSpec.posOf (s : ImportSpec) : Nat :=
  match s.name with
  | some n => n.pos
  | none => s.pathPos

/-- End of an import spec: the end of its path literal. -/
def ImportSpec.endOf (s : ImportSpec) : Nat := s.pathEnd

/-- File declarations, as far as addReplacementTextEdit inspects them:
an import declaration records whether it is grouped (Lparen set) and its
End offset; every other declaration is opaque. -/
inductive Decl where
  | importDecl (grouped : Bool) (declEnd : Nat)
  | otherDecl
deriving Repr, DecidableEq

/-- The syntactic shape around a use identifier, as classified by
processFileSymbols from PathEnclosingInterval: the expected path is
ident, then selector, then call expression or field; every other shape
jumps to Report with no edits. -/
inductive RefShape where
  | callShape (args : List Expr) (rparen : Nat)
  | fieldShape
  | otherShape

/-- One package qualified reference.  pkgPath is obj.Pkg().Path() of the
used object; the object name obj.Name() equals the selected identifier
name for uses. -/
structure Ref where
  pkgPath : String
  aliasIdent : Ident
  selIdent : Ident
  shape : RefShape

/-- A parsed file: its declared language version (empty when absent),
its imports, its declarations and its qualified references. -/
structure File where
  goVersionDecl : String
  imports : List ImportSpec
  decls : List Decl
  refs : List Ref

/-- The call expression node enclosing a call shaped reference: its Fun
is the selector over the qualifier identifier. -/
def Ref.callExpr (r : Ref) (args : List Expr) (rparen : Nat) : Expr :=
  .callE (.selectorE (.identE r.aliasIdent) r.selIdent) args rparen

/-! ## addReplacementTextEdit (src/stdlib.go lines 149 to 192) -/

/-- Build the edits replacing the package qualifier and the symbol
identifier, plus, when the replacement package is not yet imported, a
zero width insertion adding it to the first import declaration.  An
empty replacement reference produces no edits (the new form is a
builtin).  A replacement reference without a dot panics in Go; that
branch is unreachable for the registry above and is modelled as no
edits. -/
def addReplacementTextEdit (file : File) (pkg fn : Ident) (stdlib : String) : List TextEdit :=
  if stdlib = "" then []
  else
    match stringsCut stdlib "." with
    | none => []
    | some (stdlibPkg, stdlibSymbol) =>
        let edits : List TextEdit :=
          [⟨pkg.pos, pkg.endPos, stdlibPkg⟩, ⟨fn.pos, fn.endPos, stdlibSymbol⟩]
        let quoted := strconvQuote stdlibPkg
        if file.imports.any (fun i => i.pathValue == quoted) then edits
        else
          match file.decls.find? (fun d => match d with
            | .importDecl _ _ => true
            | .otherDecl => false) with
          | some (.importDecl grouped declEnd) =>
              if grouped then
                edits ++ [⟨declEnd - 1, declEnd - 1, "\n\t" ++ quoted⟩]
              else
                edits ++ [⟨declEnd, declEnd, "\nimport " ++ quoted⟩]
          | _ => edits

/-! ## processFileSymbols (src/stdlib.go lines 95 to 145) -/

/-- Process one use from pass.TypesInfo.Uses: look the object up in the
registry, apply the version gate (both misses produce nothing), build
the edits according to the enclosing shape, run the rewrite strategy on
call shapes and discard every edit when it fails, and emit the
diagnostic, whose fixes list always contains exactly one fix carrying
the surviving edits.  The returned Bool records whether the per alias
candidate counter references[file][sel.X.Name] was incremented, which
happens exactly when the edit list is nonempty. -/
def processRef (file : File) (goVersion : String) (r : Ref) : Option (Diagnostic × Bool) :=
  match symbolsLookup r.pkgPath r.selIdent.name with
  | none => none
  | some repl =>
      if versionCompare goVersion repl.minVersion < 0 then none
      else
        let edits : List TextEdit :=
          match r.shape with
          | .otherShape => []
          | .fieldShape => addReplacementTextEdit file r.aliasIdent r.selIdent repl.stdlib
          | .callShape args rparen =>
              let base := addReplacementTextEdit file r.aliasIdent r.selIdent repl.stdlib
              match repl.rewrite with
              | none => base
              | some rw =>
                  match rw (r.callExpr args rparen) with
                  | some rewriteEdits => base ++ rewriteEdits
                  | none => []
        some ({ category := "stdlib"
                pos := r.selIdent.pos
                endPos := r.selIdent.endPos
                message := r.pkgPath ++ "." ++ r.selIdent.name ++ " can be replaced with " ++
                  cmpOr2 repl.stdlib "builtin"
                suggestedFixes := [{ message := "Replace with stdlib", textEdits := edits }] },
              !edits.isEmpty)

/-- The diagnostics of processFileSymbols for a file. -/
def processFileSymbols (file : File) (goVersion : String) : List Diagnostic :=
  file.refs.filterMap (fun r => (processRef file goVersion r).map Prod.fst)

/-- Whether processing a use incremented the per alias candidate counter
references[file][sel.X.Name]: a diagnostic was produced and its edits
survived. -/
def refIncremented (file : File) (goVersion : String) (r : Ref) : Bool :=
  match processRef file goVersion r with
  | some (_, incremented) => incremented
  | none => false

/-- The per alias candidate counter references[file][alias] built by
processFileSymbols: the number of uses whose edits survived. -/
def referencesCount (file : File) (goVersion : String) (aliasName : String) : Nat :=
  (file.refs.filter (fun r =>
    r.aliasIdent.name == aliasName && refIncremented file goVersion r)).length

/-! ## processUnusedImports (src/stdlib.go lines 196 to 244) -/

/-- The counter totalPkgUses[alias] of processUnusedImports: the number
of *types.PkgName uses with that name in the file, which is the number
of qualified references written with that alias. -/
def totalPkgUses (file : File) (aliasName : String) : Nat :=
  (file.refs.filter (fun r => r.aliasIdent.name == aliasName)).length

/-- The local alias of an import spec as processUnusedImports computes
it: the explicit alias when present, otherwise the base of the package
path. -/
def localAlias (spec : ImportSpec) (pkgPath : String) : String :=
  match spec.name with
  | some n => n.name
  | none => pathBase pkgPath

/-- Decide the import removal diagnostic for one import spec: the path
must unquote and be configured in the symbol registry; the local alias
is the explicit alias or the path base; the diagnostic is emitted
exactly when the candidate count is positive and equals the total use
count of that alias. -/
def unusedImportDiag (file : File) (goVersion : String) (spec : ImportSpec) : Option Diagnostic :=
  match strconvUnquote spec.pathValue with
  | none => none
  | some pkgPath =>
      if !pkgConfigured pkgPath then none
      else
        let candidateCount := referencesCount file goVersion (localAlias spec pkgPath)
        if candidateCount > 0 && totalPkgUses file (localAlias spec pkgPath) == candidateCount then
          some { category := "unused"
                 pos := spec.posOf
                 endPos := spec.endOf
                 message := "The " ++ pkgPath ++ " package import is no longer necessary"
                 suggestedFixes := [{ message := "Remove unused import"
                                      textEdits := [⟨spec.posOf, spec.endOf, ""⟩] }] }
        else none

/-- The diagnostics of processUnusedImports for a file. -/
def processUnusedImports (file : File) (goVersion : String) : List Diagnostic :=
  file.imports.filterMap (unusedImportDiag file goVersion)

/-! ## processFileImports (src/stdlib.go lines 43 to 91) -/

/-- The String method of a *types.PkgName (go/types ObjectString): the
word package, the local name, and, when the import path differs from
that name, the quoted path in parentheses. -/
def pkgNameString (name path : String) : String :=
  "package " ++ name ++
    (if path != "" && path != name then " (" ++ strconvQuote path ++ ")" else "")

/-- The package rename processing of one import spec: when its path is
in the imports table and passes the version gate, edit the path literal
to the replacement path; when the old alias string differs from the new
alias (the new default for unaliased imports, the old alias string
itself otherwise), also rewrite every identifier use bound to
the import. -/
def importReplDiag (goVersion : String) (spec : ImportSpec) : Option Diagnostic :=
  match strconvUnquote spec.pathValue with
    | none => none
    | some pkgPath =>
        match importsLookup pkgPath with
        | none => none
        | some pkgRepl =>
            if versionCompare goVersion pkgRepl.minVersion < 0 then none
            else
              let oldAlias := pkgNameString spec.pkgNameName pkgPath
              let newAlias :=
                if spec.name.isNone then cmpOr2 pkgRepl.pkgName (pathBase pkgRepl.stdlib)
                else oldAlias
              let pathEdit : TextEdit := ⟨spec.pathPos, spec.pathEnd, strconvQuote pkgRepl.stdlib⟩
              let edits :=
                if oldAlias != newAlias then
                  pathEdit :: spec.uses.map (fun i => ⟨i.pos, i.endPos, newAlias⟩)
                else [pathEdit]
              some { category := "stdlib"
                     pos := spec.posOf
                     endPos := spec.endOf
                     message := "Package " ++ strconvQuote pkgPath ++ " can be replaced with " ++
                       strconvQuote pkgRepl.stdlib
                     suggestedFixes := [{ message := "Replace package import and update references"
                                          textEdits := edits }] }

/-- The package rename pass over a file (processFileImports). -/
def processFileImports (file : File) (pkgGoVersion : String) : List Diagnostic :=
  file.imports.filterMap (importReplDiag (effectiveGoVersion file.goVersionDecl pkgGoVersion))

/-- One full run of the analyzer on one file (the Run closure of
NewAnalyzer): the package rename pass, then the symbol scan, then
the import usage reconciliation, in that order. -/
def analyzeFile (file : File) (pkgGoVersion : String) : List Diagnostic :=
  let goVersion := effectiveGoVersion file.goVersionDecl pkgGoVersion
  processFileImports file pkgGoVersion ++
    processFileSymbols file goVersion ++
    processUnusedImports file goVersion

/-! ## Overlap of text edits

Edits are half open spans.  Two edits overlap when some offset lies in
both spans; a fix is internally consistent when its edits are pairwise
non overlapping. -/

/-- Two half open spans share an offset. -/
def Overlap (a b : TextEdit) : Prop :=
  max a.pos b.pos < min a.endPos b.endPos

/-- All edits of a list are pairwise non overlapping. -/
def NonOverlapping (es : List TextEdit) : Prop :=
  es.Pairwise (fun a b => ¬ Overlap a b)

/-! ## Position consistency of parsed files

go/ast guarantees that the offsets of a parsed file are consistent:
every node ends no earlier than it starts, a node encloses its
children, and sibling nodes appear at increasing, disjoint offsets.
The Bool predicates below record exactly those facts for the node
shapes whose offsets the analyzer turns into edits; they hold of every
file produced by the parser and are decidable, so concrete witnesses
can be checked by evaluation. -/

/-- End offset of a function type: one past the closing offset of its
last field list. -/
def funcTypeEnd (ft : FuncType) : Nat :=
  match ft.results with
  | some fl => fl.closing + 1
  | none => ft.params.closing + 1

/-- Position facts of one collected return statement: in a single result
return the result starts after the six byte return keyword.  (Only
single result returns produce edits.) -/
def retStmtOkB : Stmt → Bool
  | .returnS [res] p => decide (p + 6 ≤ res.posOf)
  | _ => true

/-- The collected return statements of a block appear in order at
increasing, disjoint offsets between the braces. -/
def retChainB (lo : Nat) : List Stmt → Nat → Bool
  | [], hi => decide (lo ≤ hi)
  | s :: rest, hi =>
      retStmtOkB s && decide (lo ≤ s.posOf) && decide (s.posOf ≤ s.endOf) &&
        retChainB s.endOf rest hi

mutual

/-- Position consistency of an expression. -/
def wfExprB : Expr → Bool
  | .identE _ => true
  | .basicLit _ _ => true
  | .binaryE x _ y => wfExprB x && wfExprB y && decide (x.endOf ≤ y.posOf)
  | .selectorE x s => wfExprB x && decide (x.endOf ≤ s.pos)
  | .callE f args rparen => wfExprB f && exprsChainB f.endOf args rparen
  | .funcLitE ft b =>
      wfFuncTypeB ft && decide (funcTypeEnd ft ≤ b.lbrace) &&
        retChainB (b.lbrace + 1) (returnsOfBlock b) b.rbrace

/-- Position consistency of a sibling expression list lying between the
offsets lo and hi. -/
def exprsChainB (lo : Nat) : List Expr → Nat → Bool
  | [], hi => decide (lo ≤ hi)
  | e :: rest, hi =>
      wfExprB e && decide (lo ≤ e.posOf) && decide (e.posOf ≤ e.endOf) &&
        exprsChainB e.endOf rest hi

/-- Position consistency of the fields of a field list between lo and
hi.  Field names precede the field type; their offsets are never turned
into edits by the registered strategies and are not constrained. -/
def fieldsChainB (lo : Nat) : List Field → Nat → Bool
  | [], hi => decide (lo ≤ hi)
  | .mk _ t :: rest, hi =>
      wfExprB t && decide (lo ≤ t.posOf) && decide (t.posOf ≤ t.endOf) &&
        fieldsChainB t.endOf rest hi

/-- Position consistency of a function type. -/
def wfFuncTypeB : FuncType → Bool
  | .mk fpos (.mk po pl pc) rs =>
      decide (fpos ≤ po) && fieldsChainB (po + 1) pl pc &&
        (match rs with
         | none => true
         | some (.mk ro rl rc) => decide (pc ≤ ro) && fieldsChainB (ro + 1) rl rc)

end

/-- Position consistency of one qualified reference: the node path the
scanner matched has consistent offsets. -/
def wfRefB (r : Ref) : Bool :=
  match r.shape with
  | .callShape args rparen => wfExprB (r.callExpr args rparen)
  | .fieldShape => decide (r.aliasIdent.endPos ≤ r.selIdent.pos)
  | .otherShape => true

/-- Pairwise test on a list. -/
def listPairwiseB (f : α → α → Bool) : List α → Bool
  | [] => true
  | x :: rest => rest.all (f x) && listPairwiseB f rest

/-- Bool separation test on spans. -/
def spansApartB (a b : Nat × Nat) : Bool :=
  decide (a.2 ≤ b.1) || decide (b.2 ≤ a.1)

/-- Position consistency of an import spec: the path literal and the
identifier uses bound to the import occupy pairwise disjoint spans (the
uses sit in the file body, the path inside the import declaration). -/
def wfImportSpecB (spec : ImportSpec) : Bool :=
  listPairwiseB spansApartB
    ((spec.pathPos, spec.pathEnd) :: spec.uses.map (fun i => (i.pos, i.endPos)))

/-- Position consistency of a file, as the parser guarantees it. -/
def wfFileB (file : File) : Bool :=
  file.imports.all wfImportSpecB && file.refs.all wfRefB

/-- A list of edits lying in order between the offsets lo and hi: each
edit starts no earlier than lo, each span ends within hi, and each edit
starts no earlier than the previous edit ends. -/
def editsChain (lo : Nat) : List TextEdit → Nat → Prop
  | [], hi => lo ≤ hi
  | e :: rest, hi => lo ≤ e.pos ∧ lo ≤ e.endPos ∧ editsChain e.endPos rest hi

/-! ## Concrete test fixtures

Small concrete files and calls used to evaluate the definitions at
specific inputs.  Offsets are consistent but otherwise arbitrary. -/

/-- A call of the shape f.g(arg0, func(x, y string) bool { return a op b })
with the two compared operands and the operator as parameters. -/
def lessCallFixture (a : Expr) (op : Token) (b : Expr) : Expr :=
  .callE (.selectorE (.identE ⟨"lo", 0⟩) ⟨"MinBy", 3⟩)
    [.identE ⟨"xs", 9⟩,
     .funcLitE
       (.mk 13 (.mk 17 [.mk [⟨"x", 18⟩, ⟨"y", 21⟩] (.identE ⟨"string", 23⟩)] 29)
         (some (.mk 30 [.mk [] (.identE ⟨"bool", 31⟩)] 35)))
       (.mk 36 [.returnS [.binaryE a op b] 38] 80)]
    81

/-- A call of the shape f.g(arg0, func(p ptype) resTy { stmts }) used to
exercise keyToCmp at argument index one. -/
def keyCallFixture (pname : Ident) (ptype resTy : Expr) (stmts : List Stmt) : Expr :=
  .callE (.selectorE (.identE ⟨"lo", 0⟩) ⟨"IsSortedByKey", 3⟩)
    [.identE ⟨"xs", 18⟩,
     .funcLitE
       (.mk 22 (.mk 26 [.mk [pname] ptype] 36) (some (.mk 37 [.mk [] resTy] 45)))
       (.mk 46 stmts 90)]
    91

/-- An unaliased import of the lo package at offset 20, whose qualifier
is used at offset 100. -/
def loImportSpec : ImportSpec :=
  { name := none
    pathValue := "\"github.com/samber/lo\""
    pathPos := 20
    pkgNameName := "lo"
    uses := [⟨"lo", 100⟩] }

/-- A reference lo.Chunk(a, 2) at offset 100. -/
def chunkRef : Ref :=
  { pkgPath := "github.com/samber/lo"
    aliasIdent := ⟨"lo", 100⟩
    selIdent := ⟨"Chunk", 103⟩
    shape := .callShape [.identE ⟨"a", 109⟩, .basicLit "2" 112] 113 }

/-- A file declaring language version go1.18 whose single reference is
lo.Chunk(a, 2). -/
def chunkFile : File :=
  { goVersionDecl := "go1.18"
    imports := [loImportSpec]
    decls := [.importDecl true 43]
    refs := [chunkRef] }

/-- A reference lo.MinBy(a, less) at offset 200: the last argument is not
a function literal, so the lessToCmp strategy fails on it. -/
def minByFailRef : Ref :=
  { pkgPath := "github.com/samber/lo"
    aliasIdent := ⟨"lo", 200⟩
    selIdent := ⟨"MinBy", 203⟩
    shape := .callShape [.identE ⟨"a", 209⟩, .identE ⟨"less", 212⟩] 216 }

/-- A file whose single reference is the failing lo.MinBy call. -/
def minByFailFile : File :=
  { goVersionDecl := ""
    imports := [loImportSpec]
    decls := [.importDecl true 43]
    refs := [minByFailRef] }

/-- A file importing the lo package whose single reference is the
rewritable lo.Chunk call. -/
def chunkOkFile : File :=
  { goVersionDecl := ""
    imports := [loImportSpec]
    decls := [.importDecl true 43]
    refs := [chunkRef] }

/-- An unaliased import of golang.org/x/net/context whose package name
equals the base of the replacement path, with one qualifier use. -/
def contextImportSpec : ImportSpec :=
  { name := none
    pathValue := "\"golang.org/x/net/context\""
    pathPos := 20
    pkgNameName := "context"
    uses := [⟨"context", 300⟩] }

/-- An import of golang.org/x/exp/slices under the explicit alias
xslices, with one qualifier use. -/
def xslicesImportSpec : ImportSpec :=
  { name := some ⟨"xslices", 12⟩
    pathValue := "\"golang.org/x/exp/slices\""
    pathPos := 20
    pkgNameName := "xslices"
    uses := [⟨"xslices", 300⟩] }

/-! ## Theorems -/

/-- C10: the toVariadic strategy is total over call expressions: with at
least one argument it succeeds with exactly one zero width insertion of
three dots at the end offset of the last argument, and with no
arguments it reports failure instead of reading an out of range
argument index. -/
theorem toVariadic_total (f : Expr) (args : List Expr) (rparen : Nat) :
    (∀ a, args.getLast? = some a →
       toVariadic (.callE f args rparen) = some [⟨a.endOf, a.endOf, "..."⟩]) ∧
    (args = [] → toVariadic (.callE f args rparen) = none) := by
  constructor
  · intro a ha
    simp [toVariadic, ha]
  · rintro rfl
    rfl

/-- Witness for C10 at a one argument call and at an empty call. -/
theorem toVariadic_total_witness :
    toVariadic (.callE (.identE ⟨"f", 0⟩) [.identE ⟨"c", 2⟩] 3) = some [⟨3, 3, "..."⟩] ∧
    toVariadic (.callE (.identE ⟨"f", 0⟩) [] 3) = none :=
  ⟨(toVariadic_total (.identE ⟨"f", 0⟩) [.identE ⟨"c", 2⟩] 3).1 (.identE ⟨"c", 2⟩) rfl,
   (toVariadic_total (.identE ⟨"f", 0⟩) [] 3).2 rfl⟩

/-- C5: lessToCmp maps operator direction correctly.  The registry
attaches the non reversed strategy to the minimum operation MinBy and
the reversed strategy to the maximum operation MaxBy; on a literal
return a op b, the non reversed strategy keeps the operand order for
the two less than comparisons and swaps it for the two greater than
comparisons, and the reversed strategy does the symmetric opposite. -/
theorem lessToCmp_operator_direction (a b : Expr) (op : Token) :
    symbolsLookup "github.com/samber/lo" "MinBy" =
        some ⟨"slices.MinFunc", "v1.21", some (lessToCmp false)⟩ ∧
    symbolsLookup "github.com/samber/lo" "MaxBy" =
        some ⟨"slices.MaxFunc", "v1.21", some (lessToCmp true)⟩ ∧
    (op = .lss ∨ op = .leq →
      lessToCmp false (lessCallFixture a op b) =
        some [⟨31, 35, "int"⟩,
              ⟨a.posOf, b.endOf, cmpCompareText (printExpr a) (printExpr b)⟩] ∧
      lessToCmp true (lessCallFixture a op b) =
        some [⟨31, 35, "int"⟩,
              ⟨a.posOf, b.endOf, cmpCompareText (printExpr b) (printExpr a)⟩]) ∧
    (op = .gtr ∨ op = .geq →
      lessToCmp false (lessCallFixture a op b) =
        some [⟨31, 35, "int"⟩,
              ⟨a.posOf, b.endOf, cmpCompareText (printExpr b) (printExpr a)⟩] ∧
      lessToCmp true (lessCallFixture a op b) =
        some [⟨31, 35, "int"⟩,
              ⟨a.posOf, b.endOf, cmpCompareText (printExpr a) (printExpr b)⟩]) := by
  refine ⟨rfl, rfl, ?_, ?_⟩ <;> rintro (rfl | rfl) <;> exact ⟨rfl, rfl⟩

/-- Witness for C5 at concrete operands. -/
theorem lessToCmp_operator_direction_witness :
    lessToCmp false (lessCallFixture (.identE ⟨"x", 53⟩) .lss (.identE ⟨"y", 57⟩)) =
        some [⟨31, 35, "int"⟩, ⟨53, 58, "cmp.Compare(x, y)"⟩] ∧
    lessToCmp true (lessCallFixture (.identE ⟨"x", 53⟩) .gtr (.identE ⟨"y", 57⟩)) =
        some [⟨31, 35, "int"⟩, ⟨53, 58, "cmp.Compare(x, y)"⟩] :=
  ⟨((lessToCmp_operator_direction _ _ _).2.2.1 (Or.inl rfl)).1,
   ((lessToCmp_operator_direction _ _ _).2.2.2 (Or.inl rfl)).2⟩

/-- C6 counterexample: on a function literal whose single return is the
equality test x == y, the reversed (maximum) strategy fails closed
instead of succeeding with the equality passed through. -/
theorem lessToCmp_equality_counterexample :
    lessToCmp true (lessCallFixture (.identE ⟨"x", 53⟩) .eql (.identE ⟨"y", 58⟩)) = none := rfl

/-- C6 amended: for any matched call whose last argument is a function
literal containing a single result return whose expression is an
equality test, lessToCmp reports failure (the switch in
src/replacements.go lines 152 to 163 has no equality case), so the
diagnostic carries no surviving edits. -/
theorem lessToCmp_equality_fails (reverse : Bool) (a b : Expr) :
    lessToCmp reverse (lessCallFixture a .eql b) = none := rfl

/-- C2: at the failing input, the version gate passes although the file
version go1.18 is semantically below the stored minimum 1.21: the
registry entry for Chunk stores the minimum version as v1.21, which
version.Compare treats as an invalid string smaller than every valid
version, so the diagnostic is produced; with the correctly spelled
go1.21 the same comparison gates the file out. -/
theorem chunk_gate_passes_below_min :
    symbolsLookup "github.com/samber/lo" "Chunk" = some ⟨"slices.Chunk", "v1.21", none⟩ ∧
    versionCompare "go1.18" "v1.21" = 1 ∧
    versionCompare "go1.18" "go1.21" < 0 ∧
    (processRef chunkFile "go1.18" chunkRef).isSome = true := by
  exact ⟨rfl, by decide, by decide, rfl⟩

/-- Filtering by a conjunction of tests yields at most as many elements
as filtering by the first test alone. -/
theorem length_filter_and_le (l : List α) (p q : α → Bool) :
    (l.filter (fun a => p a && q a)).length ≤ (l.filter p).length := by
  induction l with
  | nil => simp
  | cons a t ih =>
    by_cases hp : p a = true
    · cases hq : q a
      · simp [List.filter_cons, hp, hq]
        omega
      · simp [List.filter_cons, hp, hq]
        omega
    · have hp' : p a = false := by simpa using hp
      simp [List.filter_cons, hp']
      omega

/-- Filtering by a conjunction of tests yields strictly fewer elements
than filtering by the first test alone when some listed element passes
the first test but fails the second. -/
theorem length_filter_and_lt (l : List α) (p q : α → Bool) (x : α)
    (hx : x ∈ l) (hpx : p x = true) (hqx : q x = false) :
    (l.filter (fun a => p a && q a)).length < (l.filter p).length := by
  induction l with
  | nil => cases hx
  | cons a t ih =>
    rcases List.mem_cons.mp hx with rfl | hmem
    · have hle := length_filter_and_le t p q
      simp [List.filter_cons, hpx, hqx]
      omega
    · have hlt := ih hmem
      by_cases hp : p a = true
      · cases hq : q a
        · simp [List.filter_cons, hp, hq]
          omega
        · simp [List.filter_cons, hp, hq]
          omega
      · have hp' : p a = false := by simpa using hp
        simp [List.filter_cons, hp']
        omega

/-- C3 amended: when the rewrite strategy of a matched, version admitted
call fails, every edit for the call is discarded, the emitted
diagnostic still carries exactly one suggested fix whose edit list is
empty, the candidate counter is not incremented, and (the use being a
qualifier reference) the alias ends up with strictly more total
references than replaceable ones, blocking import removal. -/
theorem strategy_failure_no_fix (file : File) (goVersion : String) (r : Ref)
    (args : List Expr) (rparen : Nat) (repl : SymbolRepl) (rwf : RewriteFunc)
    (hlook : symbolsLookup r.pkgPath r.selIdent.name = some repl)
    (hgate : ¬ versionCompare goVersion repl.minVersion < 0)
    (hshape : r.shape = .callShape args rparen)
    (hrw : repl.rewrite = some rwf)
    (hfail : rwf (r.callExpr args rparen) = none) :
    processRef file goVersion r =
      some ({ category := "stdlib"
              pos := r.selIdent.pos
              endPos := r.selIdent.endPos
              message := r.pkgPath ++ "." ++ r.selIdent.name ++ " can be replaced with " ++
                cmpOr2 repl.stdlib "builtin"
              suggestedFixes := [{ message := "Replace with stdlib", textEdits := [] }] }, false) ∧
    (r ∈ file.refs →
      referencesCount file goVersion r.aliasIdent.name <
        totalPkgUses file r.aliasIdent.name) := by
  have hproc : processRef file goVersion r =
      some ({ category := "stdlib"
              pos := r.selIdent.pos
              endPos := r.selIdent.endPos
              message := r.pkgPath ++ "." ++ r.selIdent.name ++ " can be replaced with " ++
                cmpOr2 repl.stdlib "builtin"
              suggestedFixes := [{ message := "Replace with stdlib", textEdits := [] }] }, false) := by
    unfold processRef
    simp only [hlook, if_neg hgate, hshape, hrw, hfail]
    rfl
  refine ⟨hproc, fun hmem => ?_⟩
  have hinc : refIncremented file goVersion r = false := by
    unfold refIncremented
    rw [hproc]
  exact length_filter_and_lt file.refs _ _ r hmem (by simp) hinc

/-- C3 counterexample: at a failing MinBy call the diagnostic does carry
a suggested fix (with an empty edit list), not no fix at all. -/
theorem strategy_failure_counterexample :
    (processRef minByFailFile "go1.23" minByFailRef).map (fun pr => pr.1.suggestedFixes) =
      some [{ message := "Replace with stdlib", textEdits := [] }] ∧
    ([{ message := "Replace with stdlib", textEdits := [] }] : List SuggestedFix) ≠ [] :=
  ⟨rfl, by decide⟩

/-- Witness for C3 at the failing MinBy call. -/
theorem strategy_failure_no_fix_witness :
    processRef minByFailFile "go1.23" minByFailRef =
      some ({ category := "stdlib"
              pos := 203
              endPos := 208
              message := "github.com/samber/lo.MinBy can be replaced with slices.MinFunc"
              suggestedFixes := [{ message := "Replace with stdlib", textEdits := [] }] }, false) ∧
    referencesCount minByFailFile "go1.23" "lo" < totalPkgUses minByFailFile "lo" := by
  have h := strategy_failure_no_fix minByFailFile "go1.23" minByFailRef
    [.identE ⟨"a", 209⟩, .identE ⟨"less", 212⟩] 216
    ⟨"slices.MinFunc", "v1.21", some (lessToCmp false)⟩ (lessToCmp false)
    rfl (by decide) rfl rfl rfl
  exact ⟨h.1, h.2 (by simp [minByFailFile])⟩

/-- C1: for an import whose package path has a symbol replacement
configured, the removal diagnostic is emitted exactly when the
candidate count of its local alias is positive and equals the total use
count of that alias; and as soon as one reference to the alias was not
successfully rewritten, no removal diagnostic is emitted. -/
theorem import_removal_iff (file : File) (goVersion : String) (spec : ImportSpec)
    (pkgPath : String)
    (hun : strconvUnquote spec.pathValue = some pkgPath)
    (hconf : pkgConfigured pkgPath = true) :
    ((unusedImportDiag file goVersion spec).isSome ↔
      0 < referencesCount file goVersion (localAlias spec pkgPath) ∧
        totalPkgUses file (localAlias spec pkgPath) =
          referencesCount file goVersion (localAlias spec pkgPath)) ∧
    (∀ r ∈ file.refs, r.aliasIdent.name = localAlias spec pkgPath →
        refIncremented file goVersion r = false →
        unusedImportDiag file goVersion spec = none) := by
  have key : unusedImportDiag file goVersion spec =
      (if referencesCount file goVersion (localAlias spec pkgPath) > 0 &&
          totalPkgUses file (localAlias spec pkgPath) ==
            referencesCount file goVersion (localAlias spec pkgPath) then
        some { category := "unused"
               pos := spec.posOf
               endPos := spec.endOf
               message := "The " ++ pkgPath ++ " package import is no longer necessary"
               suggestedFixes := [{ message := "Remove unused import"
                                    textEdits := [⟨spec.posOf, spec.endOf, ""⟩] }] }
      else none) := by
    unfold unusedImportDiag
    simp only [hun, hconf, Bool.not_true, Bool.false_eq_true, if_false]
  constructor
  · rw [key]
    by_cases hc : (referencesCount file goVersion (localAlias spec pkgPath) > 0 &&
        totalPkgUses file (localAlias spec pkgPath) ==
          referencesCount file goVersion (localAlias spec pkgPath)) = true
    · simp only [Bool.and_eq_true, decide_eq_true_eq, beq_iff_eq, gt_iff_lt] at hc
      simp [hc.1, hc.2]
    · simp only [Bool.not_eq_true] at hc
      simp only [hc, Bool.false_eq_true, if_false, Option.isSome_none, false_iff]
      rintro ⟨h1, h2⟩
      simp [h1, h2] at hc
  · intro r hr hname hinc
    have hlt : referencesCount file goVersion (localAlias spec pkgPath) <
        totalPkgUses file (localAlias spec pkgPath) := by
      unfold referencesCount totalPkgUses
      exact length_filter_and_lt _ _ _ r hr (by simp [hname]) hinc
    rw [key, if_neg ?_]
    simp only [Bool.and_eq_true, decide_eq_true_eq, beq_iff_eq, gt_iff_lt, not_and]
    intro _ h2
    exact absurd h2 (ne_of_gt hlt)

/-- Witness for C1: a file whose single lo reference is fully rewritten
gets the removal diagnostic for its lo import. -/
theorem import_removal_iff_witness :
    (unusedImportDiag chunkOkFile "go1.9999" loImportSpec).isSome = true := by
  have h := import_removal_iff chunkOkFile "go1.9999" loImportSpec "github.com/samber/lo"
    rfl rfl
  exact h.1.mpr ⟨by decide, by decide⟩

/-- A successful association list lookup returns one of the stored
values. -/
theorem mem_of_lookup {β : Type} [BEq α] {l : List (α × β)} {k : α} {v : β}
    (h : List.lookup k l = some v) : v ∈ l.map Prod.snd := by
  induction l with
  | nil => cases h
  | cons a t ih =>
    rw [List.lookup] at h
    revert h
    cases hk : k == a.1 <;> intro h
    · exact List.mem_cons_of_mem _ (ih h)
    · cases h
      exact List.mem_cons_self _ _

/-- The verbose String form of a package name object never equals a
string that does not start with the letter p. -/
theorem pkgNameString_ne (name path t : String) (h : t.data.head? ≠ some 'p') :
    pkgNameString name path ≠ t := by
  intro he
  apply h
  rw [← he]
  unfold pkgNameString
  rw [String.data_append, String.data_append]
  rfl

/-- C9 amended: a package rename import with an explicit local alias gets
a fix editing only the quoted path literal, preserving the alias and
every reference; an unaliased import always gets reference rename edits
in addition (the old alias comparison uses the verbose String form of
the package name object, which never equals the new default alias),
even when the replacement default name equals the old package name. -/
theorem alias_preserved_refs_rewritten (goVersion : String) (spec : ImportSpec)
    (pkgPath : String) (pkgRepl : PkgRepl)
    (hun : strconvUnquote spec.pathValue = some pkgPath)
    (hlook : importsLookup pkgPath = some pkgRepl)
    (hgate : ¬ versionCompare goVersion pkgRepl.minVersion < 0) :
    (∀ a, spec.name = some a →
       importReplDiag goVersion spec = some
         { category := "stdlib"
           pos := spec.posOf
           endPos := spec.endOf
           message := "Package " ++ strconvQuote pkgPath ++ " can be replaced with " ++
             strconvQuote pkgRepl.stdlib
           suggestedFixes := [{ message := "Replace package import and update references"
                                textEdits :=
                                  [⟨spec.pathPos, spec.pathEnd,
                                    strconvQuote pkgRepl.stdlib⟩] }] }) ∧
    (spec.name = none →
       importReplDiag goVersion spec = some
         { category := "stdlib"
           pos := spec.posOf
           endPos := spec.endOf
           message := "Package " ++ strconvQuote pkgPath ++ " can be replaced with " ++
             strconvQuote pkgRepl.stdlib
           suggestedFixes := [{ message := "Replace package import and update references"
                                textEdits :=
                                  ⟨spec.pathPos, spec.pathEnd, strconvQuote pkgRepl.stdlib⟩ ::
                                    spec.uses.map (fun i =>
                                      ⟨i.pos, i.endPos,
                                        cmpOr2 pkgRepl.pkgName (pathBase pkgRepl.stdlib)⟩) }] }) := by
  constructor
  · intro a ha
    unfold importReplDiag
    simp only [hun, hlook, if_neg hgate, ha, Option.isNone_some, Bool.false_eq_true, if_false,
      bne_self_eq_false]
  · intro h0
    have hne : pkgNameString spec.pkgNameName pkgPath !=
        cmpOr2 pkgRepl.pkgName (pathBase pkgRepl.stdlib) := by
      have hmem := mem_of_lookup (l := importsTable) hlook
      rw [bne_iff_ne]
      fin_cases hmem <;>
        exact pkgNameString_ne _ _ _ (by decide)
    unfold importReplDiag
    simp only [hun, hlook, if_neg hgate, h0, Option.isNone_none, if_true, hne]

/-- C9 counterexample: the unaliased import of golang.org/x/net/context
has old package name context and replacement default name context, yet
the fix still contains a rename edit for the reference (the claim says
references are rewritten only when the default name differs). -/
theorem alias_rename_counterexample :
    (importReplDiag "go1.23" contextImportSpec).map (fun d => d.suggestedFixes) =
      some [{ message := "Replace package import and update references"
              textEdits := [⟨20, 46, "\"context\""⟩, ⟨300, 307, "context"⟩] }] ∧
    contextImportSpec.name = none ∧
    contextImportSpec.pkgNameName = "context" ∧
    cmpOr2 (PkgRepl.pkgName ⟨"context", "go1.7", ""⟩)
        (pathBase (PkgRepl.stdlib ⟨"context", "go1.7", ""⟩)) = "context" := by
  exact ⟨rfl, rfl, rfl, rfl⟩

/-- Witness for C9 at the aliased xslices import and the unaliased
context import. -/
theorem alias_preserved_refs_rewritten_witness :
    importReplDiag "go1.23" xslicesImportSpec = some
      { category := "stdlib"
        pos := 12
        endPos := 45
        message := "Package \"golang.org/x/exp/slices\" can be replaced with \"slices\""
        suggestedFixes := [{ message := "Replace package import and update references"
                             textEdits := [⟨20, 45, "\"slices\""⟩] }] } ∧
    importReplDiag "go1.23" contextImportSpec = some
      { category := "stdlib"
        pos := 20
        endPos := 46
        message := "Package \"golang.org/x/net/context\" can be replaced with \"context\""
        suggestedFixes := [{ message := "Replace package import and update references"
                             textEdits := [⟨20, 46, "\"context\""⟩, ⟨300, 307, "context"⟩] }] } := by
  have h1 := (alias_preserved_refs_rewritten "go1.23" xslicesImportSpec
    "golang.org/x/exp/slices" ⟨"slices", "go1.21", ""⟩ rfl rfl (by decide)).1 ⟨"xslices", 12⟩ rfl
  have h2 := (alias_preserved_refs_rewritten "go1.23" contextImportSpec
    "golang.org/x/net/context" ⟨"context", "go1.7", ""⟩ rfl rfl (by decide)).2 rfl
  rw [h1, h2]
  exact ⟨by decide, by decide⟩

/-- When some collected return statement has a single result that never
mentions the parameter, the per return fold of keyToCmp fails. -/
theorem keyToCmpRets_none (paramName : String) (rets : List Stmt)
    (h : ∃ s ∈ rets, ∃ res p, s = .returnS [res] p ∧
      containsIdentExpr paramName res = false) :
    keyToCmpRets paramName rets = none := by
  induction rets with
  | nil =>
      rcases h with ⟨s, hs, _⟩
      cases hs
  | cons s rest ih =>
      rcases h with ⟨t, ht, res, p, hteq, hcont⟩
      rcases List.mem_cons.mp ht with rfl | hmem
      · subst hteq
        simp [keyToCmpRets, hcont]
      · have hrest := ih ⟨t, hmem, res, p, hteq, hcont⟩
        cases s with
        | returnS results p2 =>
            rcases results with _ | ⟨r, _ | ⟨r2, rs⟩⟩
            · simp [keyToCmpRets]
            · by_cases hc : containsIdentExpr paramName r = true
              · simp [keyToCmpRets, hc, hrest]
              · have hc' : containsIdentExpr paramName r = false := by simpa using hc
                simp [keyToCmpRets, hc']
            · simp [keyToCmpRets]
        | exprS e => simpa [keyToCmpRets] using hrest
        | ifS c b e p2 => simpa [keyToCmpRets] using hrest

/-- When the per return fold of keyToCmp succeeds, every collected
single result return contributed its three way comparison edit. -/
theorem keyToCmpRets_mem (paramName : String) (rets : List Stmt) (es : List TextEdit)
    (h : keyToCmpRets paramName rets = some es) :
    ∀ s ∈ rets, ∀ res p, s = .returnS [res] p →
      (⟨res.posOf, res.endOf,
        cmpCompareText (printExpr res)
          (printExpr (substIdentExpr paramName "next" res))⟩ : TextEdit) ∈ es := by
  induction rets generalizing es with
  | nil =>
      intro s hs
      cases hs
  | cons s rest ih =>
      intro t ht res p hteq
      rcases List.mem_cons.mp ht with rfl | hmem
      · subst hteq
        by_cases hc : containsIdentExpr paramName res = true
        · simp only [keyToCmpRets, hc, if_true] at h
          cases hkr : keyToCmpRets paramName rest with
          | none => rw [hkr] at h; cases h
          | some re =>
              rw [hkr] at h
              simp only [Option.map_some'] at h
              cases h
              exact List.mem_cons_self _ _
        · have hc' : containsIdentExpr paramName res = false := by simpa using hc
          simp [keyToCmpRets, hc'] at h
      · cases s with
        | returnS results p2 =>
            rcases results with _ | ⟨r, _ | ⟨r2, rs⟩⟩
            · simp [keyToCmpRets] at h
            · by_cases hc : containsIdentExpr paramName r = true
              · simp only [keyToCmpRets, hc, if_true] at h
                cases hkr : keyToCmpRets paramName rest with
                | none => rw [hkr] at h; cases h
                | some re =>
                    rw [hkr] at h
                    simp only [Option.map_some'] at h
                    cases h
                    exact List.mem_cons_of_mem _ (ih re hkr t hmem res p hteq)
              · have hc' : containsIdentExpr paramName r = false := by simpa using hc
                simp [keyToCmpRets, hc'] at h
            · simp [keyToCmpRets] at h
        | exprS e =>
            exact ih es (by simpa [keyToCmpRets] using h) t hmem res p hteq
        | ifS c b e p2 =>
            exact ih es (by simpa [keyToCmpRets] using h) t hmem res p hteq

/-- C7: the key extractor rewrite fails closed whenever the body has a
return whose expression never references the original parameter; and on
success every rewritten return combines the original key expression
with the copy in which the parameter is renamed to next, through a
three way comparison call. -/
theorem keyToCmp_spec (pname : Ident) (ptype resTy : Expr) (stmts : List Stmt) :
    ((∃ s ∈ returnsOfStmts stmts, ∃ res p, s = .returnS [res] p ∧
        containsIdentExpr pname.name res = false) →
      keyToCmp 1 (keyCallFixture pname ptype resTy stmts) = none) ∧
    (∀ edits, keyToCmp 1 (keyCallFixture pname ptype resTy stmts) = some edits →
      ∀ s ∈ returnsOfStmts stmts, ∀ res p, s = .returnS [res] p →
        (⟨res.posOf, res.endOf,
          cmpCompareText (printExpr res)
            (printExpr (substIdentExpr pname.name "next" res))⟩ : TextEdit) ∈ edits) := by
  have hred : keyToCmp 1 (keyCallFixture pname ptype resTy stmts) =
      (keyToCmpRets pname.name (returnsOfStmts stmts)).map
        (fun re => ⟨resTy.posOf, resTy.endOf, "int"⟩ ::
          ⟨27, 36, pname.name ++ ", next " ++ printExpr ptype⟩ :: re) := rfl
  constructor
  · intro h
    rw [hred, keyToCmpRets_none pname.name _ h]
    rfl
  · intro edits hed s hs res p hseq
    rw [hred] at hed
    cases hkr : keyToCmpRets pname.name (returnsOfStmts stmts) with
    | none => rw [hkr] at hed; cases hed
    | some re =>
        rw [hkr] at hed
        simp only [Option.map_some'] at hed
        cases hed
        exact List.mem_cons_of_mem _
          (List.mem_cons_of_mem _ (keyToCmpRets_mem pname.name _ re hkr s hs res p hseq))

/-- Witness for C7: a body returning an expression without the parameter
makes the strategy fail, and a body returning len of the parameter gets
the comparison edit over the original and renamed texts. -/
theorem keyToCmp_spec_witness :
    keyToCmp 1 (keyCallFixture ⟨"x", 27⟩ (.identE ⟨"string", 29⟩) (.identE ⟨"int", 38⟩)
        [.returnS [.identE ⟨"k", 50⟩] 48]) = none ∧
    (⟨50, 56, "cmp.Compare(len(x), len(next))"⟩ : TextEdit) ∈
      [(⟨38, 41, "int"⟩ : TextEdit), ⟨27, 36, "x, next string"⟩,
       ⟨50, 56, "cmp.Compare(len(x), len(next))"⟩] := by
  constructor
  · exact (keyToCmp_spec ⟨"x", 27⟩ (.identE ⟨"string", 29⟩) (.identE ⟨"int", 38⟩)
      [.returnS [.identE ⟨"k", 50⟩] 48]).1
      ⟨.returnS [.identE ⟨"k", 50⟩] 48, List.mem_cons_self _ _, .identE ⟨"k", 50⟩, 48, rfl, rfl⟩
  · exact (keyToCmp_spec ⟨"x", 27⟩ (.identE ⟨"string", 29⟩) (.identE ⟨"int", 38⟩)
      [.returnS [.callE (.identE ⟨"len", 50⟩) [.identE ⟨"x", 54⟩] 55] 48]).2
      [⟨38, 41, "int"⟩, ⟨27, 36, "x, next string"⟩,
       ⟨50, 56, "cmp.Compare(len(x), len(next))"⟩]
      (by decide)
      (.returnS [.callE (.identE ⟨"len", 50⟩) [.identE ⟨"x", 54⟩] 55] 48)
      (List.mem_cons_self _ _)
      (.callE (.identE ⟨"len", 50⟩) [.identE ⟨"x", 54⟩] 55) 48 rfl

/-- C8: a file with no declared version in a module with no declared
version gets the effective version go1.9999, and the version gate
passes that version against every minimum version stored in either
registry table. -/
theorem unversioned_files_never_gated :
    effectiveGoVersion "" "" = "go1.9999" ∧
    ∀ v ∈ registryMinVersions, ¬ versionCompare "go1.9999" v < 0 :=
  ⟨rfl, by decide⟩

/-- Separated half open spans never overlap. -/
theorem not_overlap_of_le {a b : TextEdit} (h : a.endPos ≤ b.pos) : ¬ Overlap a b := by
  unfold Overlap
  omega

/-- Non overlap is symmetric. -/
theorem not_overlap_comm {a b : TextEdit} (h : ¬ Overlap a b) : ¬ Overlap b a := by
  unfold Overlap at *
  omega

/-- An empty span never overlaps anything. -/
theorem not_overlap_left_empty {a b : TextEdit} (h : a.pos = a.endPos) : ¬ Overlap a b := by
  unfold Overlap
  omega

/-- Nothing overlaps an empty span. -/
theorem not_overlap_right_empty {a b : TextEdit} (h : b.pos = b.endPos) : ¬ Overlap a b := by
  unfold Overlap
  omega

/-- A relation holding on all pairs holds pairwise. -/
theorem pairwise_of_all {R : α → α → Prop} :
    ∀ l : List α, (∀ a ∈ l, ∀ b ∈ l, R a b) → l.Pairwise R
  | [], _ => .nil
  | a :: t, h =>
      .cons (fun b hb => h a (List.mem_cons_self _ _) b (List.mem_cons_of_mem _ hb))
        (pairwise_of_all t fun x hx y hy =>
          h x (List.mem_cons_of_mem _ hx) y (List.mem_cons_of_mem _ hy))

/-- A chain reaches its upper bound. -/
theorem editsChain_le : ∀ (es : List TextEdit) (lo hi : Nat), editsChain lo es hi → lo ≤ hi
  | [], _, _, h => h
  | _ :: rest, _, _, h => le_trans h.2.1 (editsChain_le rest _ _ h.2.2)

/-- Every edit of a chain lies between the bounds. -/
theorem editsChain_facts : ∀ (es : List TextEdit) (lo hi : Nat), editsChain lo es hi →
    ∀ e ∈ es, lo ≤ e.pos ∧ lo ≤ e.endPos ∧ e.endPos ≤ hi := by
  intro es
  induction es with
  | nil =>
      intro lo hi _ e he
      cases he
  | cons a rest ih =>
      intro lo hi h e he
      rcases List.mem_cons.mp he with rfl | hmem
      · exact ⟨h.1, h.2.1, editsChain_le rest _ _ h.2.2⟩
      · have := ih a.endPos hi h.2.2 e hmem
        exact ⟨le_trans h.2.1 this.1, le_trans h.2.1 this.2.1, this.2.2⟩

/-- The edits of a chain are ordered. -/
theorem editsChain_ordered : ∀ (es : List TextEdit) (lo hi : Nat), editsChain lo es hi →
    es.Pairwise (fun a b => a.endPos ≤ b.pos) := by
  intro es
  induction es with
  | nil =>
      intro lo hi _
      exact .nil
  | cons a rest ih =>
      intro lo hi h
      exact .cons (fun b hb => (editsChain_facts rest a.endPos hi h.2.2 b hb).1)
        (ih a.endPos hi h.2.2)

/-- Chains are monotone in both bounds. -/
theorem editsChain_mono : ∀ (es : List TextEdit) {lo lo' hi hi' : Nat}, lo' ≤ lo → hi ≤ hi' →
    editsChain lo es hi → editsChain lo' es hi'
  | [], _, _, _, _, hlo, hhi, h => le_trans hlo (le_trans h hhi)
  | _ :: rest, _, _, _, _, hlo, hhi, h =>
      ⟨le_trans hlo h.1, le_trans hlo h.2.1, editsChain_mono rest (le_refl _) hhi h.2.2⟩

/-- Chains concatenate at a common bound. -/
theorem editsChain_append : ∀ (l1 l2 : List TextEdit) (lo mid hi : Nat),
    editsChain lo l1 mid → editsChain mid l2 hi → editsChain lo (l1 ++ l2) hi
  | [], l2, _, _, _, h1, h2 => editsChain_mono l2 h1 (le_refl _) h2
  | _ :: rest, l2, _, _, _, h1, h2 =>
      ⟨h1.1, h1.2.1, editsChain_append rest l2 _ _ _ h1.2.2 h2⟩

/-- A chained edit list is pairwise non overlapping. -/
theorem nonOverlapping_of_chain {es : List TextEdit} {lo hi : Nat}
    (h : editsChain lo es hi) : NonOverlapping es :=
  (editsChain_ordered es lo hi h).imp fun hab => not_overlap_of_le hab

/-- Every edit of a chain starts after anything ending at or before the
lower bound. -/
theorem not_ov_all_chain {e : TextEdit} {es : List TextEdit} {lo hi : Nat}
    (hchain : editsChain lo es hi) (he : e.endPos ≤ lo) :
    ∀ b ∈ es, ¬ Overlap e b := fun b hb =>
  not_overlap_of_le (le_trans he (editsChain_facts es lo hi hchain b hb).1)

/-- Facts carried by a well formed sibling expression list: the bounds
are ordered and every element is well formed and lies between them. -/
theorem exprsChainB_facts : ∀ (args : List Expr) (lo hi : Nat),
    exprsChainB lo args hi = true →
    lo ≤ hi ∧ ∀ e ∈ args, wfExprB e = true ∧ lo ≤ e.posOf ∧
      e.posOf ≤ e.endOf ∧ e.endOf ≤ hi := by
  intro args
  induction args with
  | nil =>
      intro lo hi h
      simp only [exprsChainB, decide_eq_true_eq] at h
      exact ⟨h, fun e he => absurd he (List.not_mem_nil e)⟩
  | cons a rest ih =>
      intro lo hi h
      simp only [exprsChainB, Bool.and_eq_true, decide_eq_true_eq] at h
      obtain ⟨⟨⟨hwf, hlo⟩, hpe⟩, hrest⟩ := h
      obtain ⟨hle, hmem⟩ := ih a.endOf hi hrest
      have hloe : lo ≤ a.endOf := le_trans hlo hpe
      refine ⟨le_trans hloe hle, ?_⟩
      intro e he
      rcases List.mem_cons.mp he with rfl | hm
      · exact ⟨hwf, hlo, hpe, hle⟩
      · obtain ⟨hw, h1, h2, h3⟩ := hmem e hm
        exact ⟨hw, le_trans hloe h1, h2, h3⟩

/-- Facts carried by a well formed field list: the bounds are ordered
and every field type lies between them. -/
theorem fieldsChainB_facts : ∀ (fs : List Field) (lo hi : Nat),
    fieldsChainB lo fs hi = true →
    lo ≤ hi ∧ ∀ f ∈ fs, wfExprB f.fieldType = true ∧ lo ≤ f.fieldType.posOf ∧
      f.fieldType.posOf ≤ f.fieldType.endOf ∧ f.fieldType.endOf ≤ hi := by
  intro fs
  induction fs with
  | nil =>
      intro lo hi h
      simp only [fieldsChainB, decide_eq_true_eq] at h
      exact ⟨h, fun f hf => absurd hf (List.not_mem_nil f)⟩
  | cons f rest ih =>
      intro lo hi h
      obtain ⟨ns, t⟩ := f
      simp only [fieldsChainB, Bool.and_eq_true, decide_eq_true_eq] at h
      obtain ⟨⟨⟨hwf, hlo⟩, hpe⟩, hrest⟩ := h
      obtain ⟨hle, hmem⟩ := ih t.endOf hi hrest
      have hloe : lo ≤ t.endOf := le_trans hlo hpe
      refine ⟨le_trans hloe hle, ?_⟩
      intro g hg
      rcases List.mem_cons.mp hg with rfl | hm
      · exact ⟨hwf, hlo, hpe, hle⟩
      · obtain ⟨hw, h1, h2, h3⟩ := hmem g hm
        exact ⟨hw, le_trans hloe h1, h2, h3⟩

/-- Inversion of one productive step of the per return processing of
lessToCmp: a success on a single comparison return splits into the edit
over the result span and a success on the remaining returns. -/
theorem lessToCmpRets_cons_invert (reverse : Bool) (x y : Expr) (op : Token) (p : Nat)
    (rest : List Stmt) (es : List TextEdit)
    (h : lessToCmpRets reverse (.returnS [.binaryE x op y] p :: rest) = some es) :
    ∃ txt es', lessToCmpRets reverse rest = some es' ∧
      es = ⟨(Expr.binaryE x op y).posOf, (Expr.binaryE x op y).endOf, txt⟩ :: es' := by
  cases op <;> cases reverse <;> simp only [lessToCmpRets] at h <;>
    first
      | cases h
      | (cases hrec : lessToCmpRets false rest with
          | none => rw [hrec] at h; simp at h
          | some es' =>
              rw [hrec] at h
              simp only [Option.map_some', Option.some.injEq] at h
              exact ⟨_, es', rfl, h.symm⟩)
      | (cases hrec : lessToCmpRets true rest with
          | none => rw [hrec] at h; simp at h
          | some es' =>
              rw [hrec] at h
              simp only [Option.map_some', Option.some.injEq] at h
              exact ⟨_, es', rfl, h.symm⟩)

/-- The edits produced by the per return processing of lessToCmp on a
chained return list form a chain between the same bounds. -/
theorem lessToCmpRets_chain : ∀ (rets : List Stmt) (reverse : Bool) (es : List TextEdit)
    (lo hi : Nat), retChainB lo rets hi = true → lessToCmpRets reverse rets = some es →
    editsChain lo es hi := by
  intro rets
  induction rets with
  | nil =>
      intro reverse es lo hi hc h
      cases h
      simpa [retChainB, editsChain] using hc
  | cons s rest ih =>
      intro reverse es lo hi hc h
      simp only [retChainB, Bool.and_eq_true, decide_eq_true_eq] at hc
      obtain ⟨⟨⟨hok, hlo⟩, hpe⟩, hrest⟩ := hc
      cases s with
      | returnS results p =>
          rcases results with _ | ⟨res, _ | ⟨r2, rs⟩⟩
          · have := ih reverse es _ hi hrest (by simpa [lessToCmpRets] using h)
            exact editsChain_mono es (le_trans hlo hpe) (le_refl _) this
          · cases res with
            | binaryE x op y =>
                have hok6 : p + 6 ≤ (Expr.binaryE x op y).posOf := by
                  simpa [retStmtOkB, decide_eq_true_eq] using hok
                obtain ⟨txt, es', hrec, rfl⟩ :=
                  lessToCmpRets_cons_invert reverse x y op p rest es h
                have hend : (Stmt.returnS [Expr.binaryE x op y] p).endOf =
                    (Expr.binaryE x op y).endOf := rfl
                refine ⟨le_trans hlo (le_trans (Nat.le_add_right p 6) hok6), ?_, ?_⟩
                · exact le_trans hlo (by simpa [hend] using hpe)
                · have := ih reverse es' _ hi hrest hrec
                  simpa [hend] using this
            | identE i => simp only [lessToCmpRets] at h; cases h
            | basicLit v q => simp only [lessToCmpRets] at h; cases h
            | selectorE x i => simp only [lessToCmpRets] at h; cases h
            | callE f as rp => simp only [lessToCmpRets] at h; cases h
            | funcLitE ft b => simp only [lessToCmpRets] at h; cases h
          · have := ih reverse es _ hi hrest (by simpa [lessToCmpRets] using h)
            exact editsChain_mono es (le_trans hlo hpe) (le_refl _) this
      | exprS e =>
          have := ih reverse es _ hi hrest (by simpa [lessToCmpRets] using h)
          exact editsChain_mono es (le_trans hlo hpe) (le_refl _) this
      | ifS c b e p =>
          have := ih reverse es _ hi hrest (by simpa [lessToCmpRets] using h)
          exact editsChain_mono es (le_trans hlo hpe) (le_refl _) this

/-- Bounds of a well formed function type: it starts no later than its
end, and every result field type lies strictly inside it. -/
theorem wfFuncTypeB_bounds (ft : FuncType) (h : wfFuncTypeB ft = true) :
    ft.funcPos ≤ funcTypeEnd ft ∧
    ∀ fl, ft.results = some fl → ∀ f0 ∈ fl.list,
      ft.funcPos ≤ f0.fieldType.posOf ∧ f0.fieldType.posOf ≤ f0.fieldType.endOf ∧
        f0.fieldType.endOf + 1 ≤ funcTypeEnd ft := by
  obtain ⟨fpos, ⟨po, pl, pc⟩, rs⟩ := ft
  cases rs with
  | none =>
      simp only [wfFuncTypeB, Bool.and_eq_true, decide_eq_true_eq] at h
      obtain ⟨⟨hfp, hpl⟩, -⟩ := h
      have hpc := (fieldsChainB_facts pl (po + 1) pc hpl).1
      refine ⟨?_, ?_⟩
      · simp only [funcTypeEnd, FuncType.results, FuncType.params, FuncType.funcPos,
          FieldList.closing]
        omega
      · intro fl hfl
        cases hfl
  | some rfl0 =>
      obtain ⟨ro, rl, rc⟩ := rfl0
      simp only [wfFuncTypeB, Bool.and_eq_true, decide_eq_true_eq] at h
      obtain ⟨⟨hfp, hpl⟩, hro, hrl⟩ := h
      have hpc := (fieldsChainB_facts pl (po + 1) pc hpl).1
      have hrfacts := fieldsChainB_facts rl (ro + 1) rc hrl
      refine ⟨?_, ?_⟩
      · simp only [funcTypeEnd, FuncType.results, FuncType.funcPos, FieldList.closing]
        omega
      · intro fl hfl
        cases hfl
        intro f0 hf0
        obtain ⟨-, h1, h2, h3⟩ := hrfacts.2 f0 (by simpa [FieldList.list] using hf0)
        simp only [funcTypeEnd, FuncType.results, FuncType.funcPos, FieldList.closing]
        omega

/-- A successful toVariadic rewrite on a well formed call yields a chain
inside the call, after the callee. -/
theorem toVariadic_chain (f : Expr) (args : List Expr) (rparen : Nat) (es : List TextEdit)
    (hwf : wfExprB (.callE f args rparen) = true)
    (h : toVariadic (.callE f args rparen) = some es) :
    editsChain f.endOf es (rparen + 1) := by
  simp only [wfExprB, Bool.and_eq_true] at hwf
  have hargs := exprsChainB_facts args f.endOf rparen hwf.2
  simp only [toVariadic] at h
  cases hlast : args.getLast? with
  | none => rw [hlast] at h; cases h
  | some a =>
      rw [hlast] at h
      cases h
      obtain ⟨-, hlo, hpe, hhi⟩ := hargs.2 a (List.mem_of_mem_getLast? hlast)
      exact ⟨le_trans hlo hpe, le_trans hlo hpe, Nat.le_succ_of_le hhi⟩

/-- A successful tmpl rewrite produces a single edit. -/
theorem tmpl_single (render : String → String → List String → Option String) (call : Expr)
    (es : List TextEdit) (h : tmpl render call = some es) : ∃ e, es = [e] := by
  unfold tmpl at h
  split at h
  case _ f args rparen =>
    split at h
    case _ pkgIdent selIdent =>
      split at h
      case _ => cases h
      case _ t ht =>
        cases h
        exact ⟨_, rfl⟩
    case _ => cases h
  case _ => cases h

/-- A successful lessToCmp rewrite on a well formed call yields a chain
inside the call, after the callee. -/
theorem lessToCmp_chain (reverse : Bool) (f : Expr) (args : List Expr) (rparen : Nat)
    (es : List TextEdit)
    (hwf : wfExprB (.callE f args rparen) = true)
    (h : lessToCmp reverse (.callE f args rparen) = some es) :
    editsChain f.endOf es (rparen + 1) := by
  simp only [wfExprB, Bool.and_eq_true] at hwf
  have hargs := exprsChainB_facts args f.endOf rparen hwf.2
  simp only [lessToCmp] at h
  cases hlast : args.getLast? with
  | none => rw [hlast] at h; cases h
  | some last =>
      rw [hlast] at h
      obtain ⟨hwfl, hlo, hpe, hhi⟩ := hargs.2 last (List.mem_of_mem_getLast? hlast)
      cases last with
      | funcLitE ft b =>
          simp only [wfExprB, Bool.and_eq_true, decide_eq_true_eq] at hwfl
          obtain ⟨⟨hft, hfe⟩, hretc⟩ := hwfl
          have hbounds := wfFuncTypeB_bounds ft hft
          have hflpos : f.endOf ≤ ft.funcPos := hlo
          have hflendOf : b.rbrace + 1 ≤ rparen := hhi
          dsimp only at h
          cases hrec : lessToCmpRets reverse (returnsOfBlock b) with
          | none => rw [hrec] at h; simp at h
          | some re =>
              rw [hrec] at h
              simp only [Option.map_some', Option.some.injEq] at h
              have hrechain : editsChain (b.lbrace + 1) re b.rbrace :=
                lessToCmpRets_chain (returnsOfBlock b) reverse re _ _ hretc hrec
              cases hres : ft.results with
              | none =>
                  rw [hres] at h
                  dsimp only at h
                  rw [List.nil_append] at h
                  cases h
                  refine editsChain_mono _ ?_ ?_ hrechain
                  · have := hbounds.1
                    simp only [funcTypeEnd, hres] at this hfe
                    omega
                  · omega
              | some fl =>
                  obtain ⟨ro, rl, rc⟩ := fl
                  cases rl with
                  | nil =>
                      rw [hres] at h
                      dsimp only at h
                      rw [List.nil_append] at h
                      cases h
                      refine editsChain_mono _ ?_ ?_ hrechain
                      · have := hbounds.1
                        simp only [funcTypeEnd, hres] at this hfe
                        omega
                      · omega
                  | cons f0 rl0 =>
                      rw [hres] at h
                      dsimp only at h
                      rw [List.cons_append, List.nil_append] at h
                      cases h
                      obtain ⟨hb1, hb2, hb3⟩ :=
                        hbounds.2 _ hres f0 (List.mem_cons_self _ _)
                      have hfend : funcTypeEnd ft ≤ b.lbrace := hfe
                      refine ⟨le_trans hflpos hb1, le_trans hflpos (le_trans hb1 hb2), ?_⟩
                      show editsChain f0.fieldType.endOf re (rparen + 1)
                      refine editsChain_mono re ?_ ?_ hrechain
                      · omega
                      · omega
      | identE i => cases h
      | basicLit v q => cases h
      | binaryE x op y => cases h
      | selectorE x i => cases h
      | callE g as rp => cases h

/-- The qualifier edit, the symbol edit and a chain of later edits never
overlap. -/
theorem nonov_two (pkg fn : Ident) (t1 t2 : String) (extra : List TextEdit) (hi : Nat)
    (hsep : pkg.endPos ≤ fn.pos)
    (hchain : editsChain fn.endPos extra hi) :
    NonOverlapping (⟨pkg.pos, pkg.endPos, t1⟩ :: ⟨fn.pos, fn.endPos, t2⟩ :: extra) := by
  have hpe : fn.pos ≤ fn.endPos := Nat.le_add_right _ _
  refine List.Pairwise.cons ?_ (List.Pairwise.cons ?_ (nonOverlapping_of_chain hchain))
  · intro b hb
    rcases List.mem_cons.mp hb with rfl | hb'
    · exact not_overlap_of_le hsep
    · exact not_ov_all_chain hchain (le_trans hsep hpe) b hb'
  · intro b hb
    exact not_ov_all_chain hchain (le_refl _) b hb

/-- The same, with one zero width insertion between the symbol edit and
the chain. -/
theorem nonov_three (pkg fn : Ident) (t1 t2 tz : String) (z : Nat)
    (extra : List TextEdit) (hi : Nat)
    (hsep : pkg.endPos ≤ fn.pos)
    (hchain : editsChain fn.endPos extra hi) :
    NonOverlapping (⟨pkg.pos, pkg.endPos, t1⟩ :: ⟨fn.pos, fn.endPos, t2⟩ ::
      ⟨z, z, tz⟩ :: extra) := by
  have hpe : fn.pos ≤ fn.endPos := Nat.le_add_right _ _
  refine List.Pairwise.cons ?_ (List.Pairwise.cons ?_ (List.Pairwise.cons ?_
    (nonOverlapping_of_chain hchain)))
  · intro b hb
    rcases List.mem_cons.mp hb with rfl | hb'
    · exact not_overlap_of_le hsep
    · rcases List.mem_cons.mp hb' with rfl | hb2
      · exact not_overlap_right_empty rfl
      · exact not_ov_all_chain hchain (le_trans hsep hpe) b hb2
  · intro b hb
    rcases List.mem_cons.mp hb with rfl | hb'
    · exact not_overlap_right_empty rfl
    · exact not_ov_all_chain hchain (le_refl _) b hb'
  · intro b hb
    exact not_overlap_left_empty rfl

/-- The edits of addReplacementTextEdit followed by a chain of strategy
edits starting after the symbol identifier are pairwise non
overlapping. -/
theorem nonov_addRepl_append (file : File) (pkg fn : Ident) (s : String)
    (extra : List TextEdit) (hi : Nat)
    (hsep : pkg.endPos ≤ fn.pos)
    (hchain : editsChain fn.endPos extra hi) :
    NonOverlapping (addReplacementTextEdit file pkg fn s ++ extra) := by
  have hextra : NonOverlapping extra := nonOverlapping_of_chain hchain
  unfold addReplacementTextEdit
  by_cases h0 : s = ""
  · rw [if_pos h0]
    simpa using hextra
  · rw [if_neg h0]
    cases hcut : stringsCut s "." with
    | none => simpa using hextra
    | some pr =>
        obtain ⟨p', s'⟩ := pr
        dsimp only
        by_cases him : (file.imports.any fun i => i.pathValue == strconvQuote p') = true
        · rw [if_pos him]
          exact nonov_two pkg fn p' s' extra hi hsep hchain
        · rw [if_neg him]
          cases hfd : file.decls.find? (fun d => match d with
            | .importDecl _ _ => true
            | .otherDecl => false) with
          | none => exact nonov_two pkg fn p' s' extra hi hsep hchain
          | some d =>
              cases d with
              | otherDecl => exact nonov_two pkg fn p' s' extra hi hsep hchain
              | importDecl g de =>
                  cases g with
                  | true => exact nonov_three pkg fn p' s' _ _ extra hi hsep hchain
                  | false => exact nonov_three pkg fn p' s' _ _ extra hi hsep hchain

/-- A successful registry lookup returns one of the stored entries. -/
theorem symbolsLookup_mem {p n : String} {repl : SymbolRepl}
    (h : symbolsLookup p n = some repl) : repl ∈ allSymbolRepls := by
  unfold symbolsLookup at h
  cases h1 : List.lookup p symbols with
  | none => rw [h1] at h; cases h
  | some tbl =>
      rw [h1] at h
      have htbl := mem_of_lookup h1
      have hrepl := mem_of_lookup h
      simp only [symbols, replacements, List.map_cons, List.map_nil, List.mem_cons,
        List.not_mem_nil, or_false] at htbl
      rcases htbl with rfl | rfl <;>
        · simp only [allSymbolRepls, replacements] at *
          simp only [List.flatMap_cons, List.flatMap_nil, List.map_cons, List.map_nil,
            List.mem_cons, List.mem_append, List.not_mem_nil, or_false] at hrepl ⊢
          tauto

/-- Pairs separated by the Bool span test do not overlap as edits with
those spans. -/
theorem not_overlap_of_spansApart {p1 e1 p2 e2 : Nat} {t1 t2 : String}
    (h : spansApartB (p1, e1) (p2, e2) = true) :
    ¬ Overlap ⟨p1, e1, t1⟩ ⟨p2, e2, t2⟩ := by
  simp only [spansApartB, Bool.or_eq_true, decide_eq_true_eq] at h
  rcases h with h | h
  · exact not_overlap_of_le h
  · exact not_overlap_comm (not_overlap_of_le h)

/-- Bool pairwise tests give propositional pairwise facts. -/
theorem listPairwiseB_pairwise (f : α → α → Bool) :
    ∀ l : List α, listPairwiseB f l = true → l.Pairwise (fun a b => f a b = true) := by
  intro l
  induction l with
  | nil => intro _; exact .nil
  | cons a t ih =>
      intro h
      simp only [listPairwiseB, Bool.and_eq_true, List.all_eq_true] at h
      exact .cons (fun b hb => h.1 b hb) (ih h.2)

/-- A one element edit list is non overlapping. -/
theorem nonov_singleton (e : TextEdit) : NonOverlapping [e] :=
  .cons (fun b hb => absurd hb (List.not_mem_nil b)) .nil

/-- The edit list built by processRef for one reference is pairwise non
overlapping, for every registry entry and position consistent input. -/
theorem refEdits_nonov (file : File) (r : Ref) (repl : SymbolRepl)
    (hwf : wfRefB r = true) (hmem : repl ∈ allSymbolRepls) :
    NonOverlapping (match r.shape with
      | RefShape.otherShape => []
      | RefShape.fieldShape =>
          addReplacementTextEdit file r.aliasIdent r.selIdent repl.stdlib
      | RefShape.callShape args rparen =>
          match repl.rewrite with
          | none => addReplacementTextEdit file r.aliasIdent r.selIdent repl.stdlib
          | some rw =>
              match rw (r.callExpr args rparen) with
              | some rewriteEdits =>
                  addReplacementTextEdit file r.aliasIdent r.selIdent repl.stdlib ++
                    rewriteEdits
              | none => []) := by
  unfold wfRefB at hwf
  cases hshape : r.shape with
  | otherShape => exact List.Pairwise.nil
  | fieldShape =>
      rw [hshape] at hwf
      simp only [decide_eq_true_eq] at hwf
      simpa using nonov_addRepl_append file r.aliasIdent r.selIdent repl.stdlib []
        r.selIdent.endPos hwf (le_refl _)
  | callShape args rparen =>
      rw [hshape] at hwf
      have hwfc : wfExprB (r.callExpr args rparen) = true := hwf
      have hcomp : (Ident.endPos r.aliasIdent ≤ r.selIdent.pos) ∧
          exprsChainB (Ident.endPos r.selIdent) args rparen = true := by
        have h2 := hwfc
        unfold Ref.callExpr at h2
        simp only [wfExprB, Bool.and_eq_true, decide_eq_true_eq, Expr.endOf] at h2
        exact ⟨h2.1.2, h2.2⟩
      obtain ⟨hsep, hchainArgs⟩ := hcomp
      have hbase : ∀ s, NonOverlapping (addReplacementTextEdit file r.aliasIdent
          r.selIdent s) := fun s => by
        simpa using nonov_addRepl_append file r.aliasIdent r.selIdent s []
          (Ident.endPos r.selIdent) hsep (le_refl _)
      simp only [allSymbolRepls, replacements, List.flatMap_cons, List.flatMap_nil,
        List.map_cons, List.map_nil, List.mem_cons, List.mem_append,
        List.not_mem_nil, or_false] at hmem
      rcases hmem with (rfl | rfl | rfl | rfl | rfl | rfl | rfl | rfl | rfl | rfl | rfl |
        rfl | rfl | rfl | rfl | rfl) | rfl <;>
        dsimp only <;>
        first
          | exact hbase _
          | (cases hr : tmpl dropTemplate (r.callExpr args rparen) with
              | none => exact List.Pairwise.nil
              | some re =>
                  obtain ⟨e, rfl⟩ := tmpl_single _ _ _ hr
                  exact nonov_singleton e)
          | (cases hr : tmpl dropRightTemplate (r.callExpr args rparen) with
              | none => exact List.Pairwise.nil
              | some re =>
                  obtain ⟨e, rfl⟩ := tmpl_single _ _ _ hr
                  exact nonov_singleton e)
          | (cases hr : toVariadic (r.callExpr args rparen) with
              | none => exact List.Pairwise.nil
              | some re =>
                  exact nonov_addRepl_append file r.aliasIdent r.selIdent _ re (rparen + 1)
                    hsep (toVariadic_chain _ args rparen re hwfc hr))
          | (cases hr : lessToCmp false (r.callExpr args rparen) with
              | none => exact List.Pairwise.nil
              | some re =>
                  exact nonov_addRepl_append file r.aliasIdent r.selIdent _ re (rparen + 1)
                    hsep (lessToCmp_chain false _ args rparen re hwfc hr))
          | (cases hr : lessToCmp true (r.callExpr args rparen) with
              | none => exact List.Pairwise.nil
              | some re =>
                  exact nonov_addRepl_append file r.aliasIdent r.selIdent _ re (rparen + 1)
                    hsep (lessToCmp_chain true _ args rparen re hwfc hr))

/-- Every fix of a diagnostic produced by the symbol scanner carries
pairwise non overlapping edits, for position consistent input. -/
theorem processRef_fixes_nonov (file : File) (goVersion : String) (r : Ref)
    (d : Diagnostic) (inc : Bool)
    (hwf : wfRefB r = true)
    (h : processRef file goVersion r = some (d, inc)) :
    ∀ fix ∈ d.suggestedFixes, NonOverlapping fix.textEdits := by
  unfold processRef at h
  cases hlook : symbolsLookup r.pkgPath r.selIdent.name with
  | none => rw [hlook] at h; cases h
  | some repl =>
      rw [hlook] at h
      dsimp only at h
      by_cases hg : versionCompare goVersion repl.minVersion < 0
      · rw [if_pos hg] at h; cases h
      · rw [if_neg hg] at h
        cases h
        intro fix hfix
        rcases List.mem_singleton.mp hfix with rfl
        exact refEdits_nonov file r repl hwf (symbolsLookup_mem hlook)

/-- Every fix of a package rename diagnostic carries pairwise non
overlapping edits, for position consistent input. -/
theorem importReplDiag_fixes_nonov (goVersion : String) (spec : ImportSpec) (d : Diagnostic)
    (hwf : wfImportSpecB spec = true)
    (h : importReplDiag goVersion spec = some d) :
    ∀ fix ∈ d.suggestedFixes, NonOverlapping fix.textEdits := by
  have hp := listPairwiseB_pairwise spansApartB _ hwf
  rw [List.pairwise_cons] at hp
  obtain ⟨hpathuses, huses⟩ := hp
  unfold importReplDiag at h
  cases hun : strconvUnquote spec.pathValue with
  | none => rw [hun] at h; cases h
  | some pkgPath =>
      rw [hun] at h
      dsimp only at h
      cases hlook : importsLookup pkgPath with
      | none => rw [hlook] at h; cases h
      | some pkgRepl =>
          rw [hlook] at h
          dsimp only at h
          by_cases hg : versionCompare goVersion pkgRepl.minVersion < 0
          · rw [if_pos hg] at h
            cases h
          · rw [if_neg hg] at h
            split at h <;>
              (cases h
               intro fix hfix
               rcases List.mem_singleton.mp hfix with rfl
               dsimp only
               split) <;>
              first
                | exact nonov_singleton _
                | exact List.Pairwise.cons
                    (fun b hb => by
                      obtain ⟨i, hi, rfl⟩ := List.mem_map.mp hb
                      exact not_overlap_of_spansApart
                        (hpathuses (i.pos, i.endPos) (List.mem_map_of_mem _ hi)))
                    (by
                      rw [List.pairwise_map]
                      exact (List.pairwise_map.mp huses).imp
                        fun hab => not_overlap_of_spansApart hab)

/-- The removal diagnostic always carries a single edit fix. -/
theorem unusedImportDiag_fixes_nonov (file : File) (goVersion : String) (spec : ImportSpec)
    (d : Diagnostic)
    (h : unusedImportDiag file goVersion spec = some d) :
    ∀ fix ∈ d.suggestedFixes, NonOverlapping fix.textEdits := by
  unfold unusedImportDiag at h
  cases hun : strconvUnquote spec.pathValue with
  | none => rw [hun] at h; cases h
  | some pkgPath =>
      rw [hun] at h
      dsimp only at h
      split at h
      · cases h
      · split at h
        · cases h
          intro fix hfix
          rcases List.mem_singleton.mp hfix with rfl
          exact nonov_singleton _
        · cases h

/-- C4: on a position consistent file, every diagnostic the analyzer
produces carries suggested fixes whose text edits are pairwise non
overlapping half open spans. -/
theorem suggested_fixes_nonoverlapping (file : File) (pkgGoVersion : String)
    (hwf : wfFileB file = true) :
    ∀ d ∈ analyzeFile file pkgGoVersion, ∀ fix ∈ d.suggestedFixes,
      NonOverlapping fix.textEdits := by
  have hwfs := hwf
  simp only [wfFileB, Bool.and_eq_true, List.all_eq_true] at hwfs
  obtain ⟨hwfi, hwfr⟩ := hwfs
  intro d hd
  unfold analyzeFile at hd
  dsimp only at hd
  rcases List.mem_append.mp hd with hd1 | hd3
  · rcases List.mem_append.mp hd1 with hdA | hdB
    · unfold processFileImports at hdA
      obtain ⟨spec, hspec, hds⟩ := List.mem_filterMap.mp hdA
      exact importReplDiag_fixes_nonov _ spec d (hwfi spec hspec) hds
    · unfold processFileSymbols at hdB
      obtain ⟨r, hr, hds⟩ := List.mem_filterMap.mp hdB
      cases hpr : processRef file (effectiveGoVersion file.goVersionDecl pkgGoVersion) r with
      | none => rw [hpr] at hds; cases hds
      | some pr =>
          rw [hpr] at hds
          simp only [Option.map_some', Option.some.injEq] at hds
          obtain ⟨d0, i0⟩ := pr
          cases hds
          exact processRef_fixes_nonov file _ r d0 i0 (hwfr r hr) hpr
  · unfold processUnusedImports at hd3
    obtain ⟨spec, hspec, hds⟩ := List.mem_filterMap.mp hd3
    exact unusedImportDiag_fixes_nonov file _ spec d hds

/-- Witness for C4: the fix of the Chunk diagnostic on the concrete file
(two replacement edits plus the zero width import insertion) is non
overlapping. -/
theorem suggested_fixes_nonoverlapping_witness :
    NonOverlapping [(⟨100, 102, "slices"⟩ : TextEdit), ⟨103, 108, "Chunk"⟩,
      ⟨42, 42, "\n\t\"slices\""⟩] := by
  exact suggested_fixes_nonoverlapping chunkOkFile "" (by decide)
    { category := "stdlib"
      pos := 103
      endPos := 108
      message := "github.com/samber/lo.Chunk can be replaced with slices.Chunk"
      suggestedFixes := [{ message := "Replace with stdlib"
                           textEdits := [⟨100, 102, "slices"⟩, ⟨103, 108, "Chunk"⟩,
                             ⟨42, 42, "\n\t\"slices\""⟩] }] }
    (by decide)
    { message := "Replace with stdlib"
      textEdits := [⟨100, 102, "slices"⟩, ⟨103, 108, "Chunk"⟩, ⟨42, 42, "\n\t\"slices\""⟩] }
    (by decide)

end Stdlib
